import Mathlib

/-!
# SWAN64 with a precomputed key schedule

A shallow embedding of `code/c/SWAN64_PRECOMPUTE.h`.

* A byte (`uint8_t`) is a natural number below 256, a `uint32_t` one below `2^32`;
  every place where the C arithmetic can leave that range carries an explicit `%`.
* A C array is a `List Nat`.  `rd a i` is the read `a[i]`, `List.set` the write
  `a[i] = v`.  A read outside the list yields `0` and a write outside it is dropped.
* A `for` loop over an 8-bit counter is run by `loopFor` for a bounded number of
  iterations; `loopResult` is `none` when the loop is still running after that many.
* Fields called `used` and `reads` are ghost logs: they record which subkeys were
  mixed in and which table entries were read, and never influence the data.
-/

namespace SWAN64

/-! ## Memory and loops -/

/-- The read `a[i]` of a byte array. -/
def rd (a : List Nat) (i : Nat) : Nat := a.getD i 0

/-- Conversion of an `int` value to `uint8_t` on assignment. -/
def u8 (x : Nat) : Nat := x % 256

/-- Conversion of a value to `uint32_t`. -/
def u32 (x : Nat) : Nat := x % 2 ^ 32

/-- The state after at most `n` iterations of `while (cond) body`. -/
def loopFor {σ : Type} (cond : σ → Bool) (body : σ → σ) : Nat → σ → σ
  | 0, s => s
  | n + 1, s => if cond s then loopFor cond body n (body s) else s

/-- The state in which `while (cond) body` exits, when it does so within `fuel` iterations. -/
def loopResult {σ : Type} (cond : σ → Bool) (body : σ → σ) (fuel : Nat) (s : σ) : Option σ :=
  let t := loopFor cond body fuel s
  if cond t then none else some t

/-! ## Constants -/

def ROUNDS64_K128 : Nat := 32
def ROUNDS64_K256 : Nat := 64
def KEY128 : Nat := 128
def KEY256 : Nat := 256
def A : Nat := 1
def B : Nat := 3
def C : Nat := 5
def DELTA : Nat := 0x9e3779b9

/-! ## The layers -/

/-- The macro `ROL8(x, n)`, `((x >> n) | (x << (8 - n)))`, on the promoted `int`. -/
def ROL8 (x n : Nat) : Nat := (x >>> n) ||| (x <<< (8 - n))

/-- The operator `~` on the promoted `int`, converted back to `uint8_t`. -/
def not8 (x : Nat) : Nat := Int.toNat ((-(x : Int) - 1) % 256)

/-- The function `Beta`: the bitsliced S-box layer. -/
def Beta (a : List Nat) : List Nat :=
  let a0 := rd a 0
  let a1 := rd a 1
  let a2 := rd a 2
  let a3 := rd a 3
  let b0 := not8 (a0 ^^^ a1 ^^^ a3 ^^^ (a2 &&& a3))
  let b1 := a0 ^^^ (a0 &&& a1) ^^^ a2 ^^^ (a0 &&& a3) ^^^ (a1 &&& a3) ^^^ (a0 &&& a1 &&& a3)
    ^^^ (a2 &&& a3) ^^^ (a0 &&& a2 &&& a3) ^^^ (a1 &&& a2 &&& a3)
  let b2 := a1 ^^^ a2 ^^^ (a0 &&& a2) ^^^ a3 ^^^ (a0 &&& a1 &&& a3) ^^^ (a1 &&& a2 &&& a3)
  let b3 := a1 ^^^ (a0 &&& a1) ^^^ (a0 &&& a2) ^^^ (a0 &&& a3) ^^^ (a2 &&& a3)
    ^^^ (a0 &&& a2 &&& a3)
  [b0, b1, b2, b3]

/-- The function `ShiftLanes`: three in-place assignments through `ROL8`. -/
def ShiftLanes (a : List Nat) : List Nat :=
  let a := a.set 1 (u8 (ROL8 (rd a 1) A))
  let a := a.set 2 (u8 (ROL8 (rd a 2) B))
  let a := a.set 3 (u8 (ROL8 (rd a 3) C))
  a

/-- The function `SwitchLanes`. -/
def SwitchLanes (a : List Nat) : List Nat :=
  let temp := rd a 3
  let a := a.set 3 (rd a 2)
  let a := a.set 2 (rd a 1)
  let a := a.set 1 (rd a 0)
  let a := a.set 0 temp
  a

/-! ## The key schedule -/

/-- The function `RotateKeyByte`: its three loops, in order.  The second loop runs `i` over
`0 .. keylength / 8 - 2` and reads `key[i + 3]`, so its last two reads are at
`keylength / 8` and `keylength / 8 + 1`; what it stores from them at `keylength / 8 - 3`
and `keylength / 8 - 2` is overwritten by the third loop. -/
def RotateKeyByte (key : List Nat) (keylength : Nat) : List Nat :=
  let temp := (List.range 3).foldl (fun t i => t.set i (rd key i)) [0, 0, 0]
  let key := (List.range (keylength / 8 - 1)).foldl (fun k i => k.set i (rd k (i + 3))) key
  let key := (List.range 3).foldl (fun k i => k.set (keylength / 8 - (3 - i)) (rd temp i)) key
  key

/-- The 32-bit word that a `uint32_t *` aliasing four bytes reads, in the byte order of the
machine (`bigEndian = false` on x86 and little-endian ARM). -/
def load32 (bigEndian : Bool) (s : List Nat) : Nat :=
  if bigEndian then rd s 0 * 2 ^ 24 + rd s 1 * 2 ^ 16 + rd s 2 * 2 ^ 8 + rd s 3
  else rd s 0 + rd s 1 * 2 ^ 8 + rd s 2 * 2 ^ 16 + rd s 3 * 2 ^ 24

/-- The four bytes that a store of `v` through a `uint32_t *` leaves in memory. -/
def store32 (bigEndian : Bool) (v : Nat) : List Nat :=
  if bigEndian then [v / 2 ^ 24 % 256, v / 2 ^ 16 % 256, v / 2 ^ 8 % 256, v % 256]
  else [v % 256, v / 2 ^ 8 % 256, v / 2 ^ 16 % 256, v / 2 ^ 24 % 256]

/-- The function `AddRoundConstant`: `*a = *a + sum` through a `uint32_t *` on the subkey. -/
def AddRoundConstant (bigEndian : Bool) (subkey : List Nat) (sum : Nat) : List Nat :=
  let b := store32 bigEndian (u32 (load32 bigEndian subkey + sum))
  let subkey := subkey.set 0 (rd b 0)
  let subkey := subkey.set 1 (rd b 1)
  let subkey := subkey.set 2 (rd b 2)
  let subkey := subkey.set 3 (rd b 3)
  subkey

/-- The locals of `GenerateKey` that live across its loop. -/
structure GenState where
  key : List Nat
  round_constant : Nat
  ekey : List Nat
deriving DecidableEq, Repr

/-- The body of the loop of `GenerateKey`, at loop counter `i`; `ekey[i][k]` is byte
`4 * i + k` of the two-dimensional array. -/
def GenerateKey_body (bigEndian : Bool) (keysize : Nat) (s : GenState) (i : Nat) : GenState :=
  let key := RotateKeyByte s.key (keysize % 65536)
  let subkey := [rd key 0, rd key 1, rd key 2, rd key 3]
  let round_constant := u32 (s.round_constant + DELTA)
  let subkey := AddRoundConstant bigEndian subkey round_constant
  let ekey := s.ekey.set (4 * i + 0) (rd subkey 0)
  let ekey := ekey.set (4 * i + 1) (rd subkey 1)
  let ekey := ekey.set (4 * i + 2) (rd subkey 2)
  let ekey := ekey.set (4 * i + 3) (rd subkey 3)
  let key := key.set 0 (rd subkey 0)
  let key := key.set 1 (rd subkey 1)
  let key := key.set 2 (rd subkey 2)
  let key := key.set 3 (rd subkey 3)
  { key := key, round_constant := round_constant, ekey := ekey }

/-- The function `GenerateKey`; the result is the `(2 * rounds + 1) * 4` bytes it copies to
`keyarray`.  The local array `ekey` is not initialised: `uninit k` is the value its byte
`k` happens to hold on entry. -/
def GenerateKey (bigEndian : Bool) (uninit : Nat → Nat) (_key : List Nat) (rounds : Nat)
    (keysize : Nat) : List Nat :=
  let key := _key.take (keysize / 8)
  let ekey := (List.range ((2 * rounds + 1) * 4)).map uninit
  let s := (List.range' 1 (2 * rounds)).foldl (GenerateKey_body bigEndian keysize)
    { key := key, round_constant := 0, ekey := ekey }
  s.ekey.take ((2 * rounds + 1) * 4)

/-! ## Encryption and decryption -/

/-- The locals of an encrypt function that live across its loop, and the log `used` of the
subkeys XORed into the branch copies so far. -/
structure EncState where
  i : Nat
  L : List Nat
  R : List Nat
  key : List Nat
  round_constant : Nat
  used : List (List Nat)
deriving DecidableEq, Repr

/-- The locals of a decrypt function that live across its loop, and the log `reads` of the
indices of the table entries read so far. -/
structure DecState where
  i : Nat
  L : List Nat
  R : List Nat
  reads : List Nat
deriving DecidableEq, Repr

/-- The body of the round loop of `SWAN64_K128_encrypt_rounds`, followed by `i++`. -/
def SWAN64_K128_encrypt_body (bigEndian : Bool) (s : EncState) : EncState :=
  -- first half round
  let tempL := [rd s.L 0, rd s.L 1, rd s.L 2, rd s.L 3]
  let tempL := ShiftLanes tempL
  let key := RotateKeyByte s.key KEY128
  let subkey := [rd key 0, rd key 1, rd key 2, rd key 3]
  let round_constant := u32 (s.round_constant + DELTA)
  let subkey := AddRoundConstant bigEndian subkey round_constant
  let key := key.set 0 (rd subkey 0)
  let key := key.set 1 (rd subkey 1)
  let key := key.set 2 (rd subkey 2)
  let key := key.set 3 (rd subkey 3)
  let tempL := [rd tempL 0 ^^^ rd subkey 0, rd tempL 1 ^^^ rd subkey 1,
    rd tempL 2 ^^^ rd subkey 2, rd tempL 3 ^^^ rd subkey 3]
  let used := s.used ++ [subkey]
  let tempL := Beta tempL
  let tempL := SwitchLanes tempL
  let R := [rd s.R 0 ^^^ rd tempL 0, rd s.R 1 ^^^ rd tempL 1,
    rd s.R 2 ^^^ rd tempL 2, rd s.R 3 ^^^ rd tempL 3]
  -- second half round
  let tempR := [rd R 0, rd R 1, rd R 2, rd R 3]
  let tempR := ShiftLanes tempR
  let key := RotateKeyByte key KEY128
  let subkey := [rd key 0, rd key 1, rd key 2, rd key 3]
  let round_constant := u32 (round_constant + DELTA)
  let subkey := AddRoundConstant bigEndian subkey round_constant
  let key := key.set 0 (rd subkey 0)
  let key := key.set 1 (rd subkey 1)
  let key := key.set 2 (rd subkey 2)
  let key := key.set 3 (rd subkey 3)
  let tempR := [rd tempR 0 ^^^ rd subkey 0, rd tempR 1 ^^^ rd subkey 1,
    rd tempR 2 ^^^ rd subkey 2, rd tempR 3 ^^^ rd subkey 3]
  let used := used ++ [subkey]
  let tempR := Beta tempR
  let tempR := SwitchLanes tempR
  let L := [rd s.L 0 ^^^ rd tempR 0, rd s.L 1 ^^^ rd tempR 1,
    rd s.L 2 ^^^ rd tempR 2, rd s.L 3 ^^^ rd tempR 3]
  { i := u8 (s.i + 1), L := L, R := R, key := key, round_constant := round_constant,
    used := used }

/-- The locals of `SWAN64_K128_encrypt_rounds` on entry to its loop. -/
def SWAN64_K128_encrypt_init (plain _key : List Nat) : EncState :=
  { i := 1
    L := [rd plain 0, rd plain 1, rd plain 2, rd plain 3]
    R := [rd plain 4, rd plain 5, rd plain 6, rd plain 7]
    key := _key.take (KEY128 / 8)
    round_constant := 0
    used := [] }

/-- The locals of `SWAN64_K128_encrypt_rounds` after at most `n` iterations of
`for (i = 1; i <= rounds; i++)`. -/
def SWAN64_K128_encrypt_loop (bigEndian : Bool) (n : Nat) (plain _key : List Nat)
    (rounds : Nat) : EncState :=
  loopFor (fun s => decide (s.i ≤ rounds)) (SWAN64_K128_encrypt_body bigEndian) n
    (SWAN64_K128_encrypt_init plain _key)

/-- The function `SWAN64_K128_encrypt_rounds`: the eight bytes written to `cipher`, or `none`
when the loop has not exited within `fuel` iterations. -/
def SWAN64_K128_encrypt_rounds (bigEndian : Bool) (fuel : Nat) (plain _key : List Nat)
    (rounds : Nat) : Option (List Nat) :=
  (loopResult (fun s => decide (s.i ≤ rounds)) (SWAN64_K128_encrypt_body bigEndian) fuel
    (SWAN64_K128_encrypt_init plain _key)).map
    (fun s => [rd s.L 0, rd s.L 1, rd s.L 2, rd s.L 3, rd s.R 0, rd s.R 1, rd s.R 2, rd s.R 3])

/-- The body of the round loop of `SWAN64_K128_decrypt_rounds`, followed by `i++`; the index
expressions are evaluated in `int`. -/
def SWAN64_K128_decrypt_body (rounds : Nat) (ekey : List Nat) (s : DecState) : DecState :=
  -- first half round
  let tempR := [rd s.R 0, rd s.R 1, rd s.R 2, rd s.R 3]
  let tempR := ShiftLanes tempR
  let j := Int.toNat (2 * (rounds : Int) + 1 - (2 * (s.i : Int) - 1))
  let subkey := [rd ekey (4 * j + 0), rd ekey (4 * j + 1), rd ekey (4 * j + 2),
    rd ekey (4 * j + 3)]
  let reads := s.reads ++ [j]
  let tempR := [rd tempR 0 ^^^ rd subkey 0, rd tempR 1 ^^^ rd subkey 1,
    rd tempR 2 ^^^ rd subkey 2, rd tempR 3 ^^^ rd subkey 3]
  let tempR := Beta tempR
  let tempR := SwitchLanes tempR
  let L := [rd s.L 0 ^^^ rd tempR 0, rd s.L 1 ^^^ rd tempR 1,
    rd s.L 2 ^^^ rd tempR 2, rd s.L 3 ^^^ rd tempR 3]
  let tempL := [rd L 0, rd L 1, rd L 2, rd L 3]
  -- second half round
  let tempL := ShiftLanes tempL
  let j := Int.toNat (2 * (rounds : Int) + 1 - 2 * (s.i : Int))
  let subkey := [rd ekey (4 * j + 0), rd ekey (4 * j + 1), rd ekey (4 * j + 2),
    rd ekey (4 * j + 3)]
  let reads := reads ++ [j]
  let tempL := [rd tempL 0 ^^^ rd subkey 0, rd tempL 1 ^^^ rd subkey 1,
    rd tempL 2 ^^^ rd subkey 2, rd tempL 3 ^^^ rd subkey 3]
  let tempL := Beta tempL
  let tempL := SwitchLanes tempL
  let R := [rd tempL 0 ^^^ rd s.R 0, rd tempL 1 ^^^ rd s.R 1,
    rd tempL 2 ^^^ rd s.R 2, rd tempL 3 ^^^ rd s.R 3]
  { i := u8 (s.i + 1), L := L, R := R, reads := reads }

/-- The locals of `SWAN64_K128_decrypt_rounds` on entry to its loop. -/
def SWAN64_K128_decrypt_init (cipher : List Nat) : DecState :=
  { i := 1
    L := [rd cipher 0, rd cipher 1, rd cipher 2, rd cipher 3]
    R := [rd cipher 4, rd cipher 5, rd cipher 6, rd cipher 7]
    reads := [] }

/-- The locals of `SWAN64_K128_decrypt_rounds` after at most `n` iterations of its loop; the
local `ekey` is the copy of the first `(2 * rounds + 1) * 4` bytes of `_key`. -/
def SWAN64_K128_decrypt_loop (n : Nat) (cipher _key : List Nat) (rounds : Nat) : DecState :=
  loopFor (fun s => decide (s.i ≤ rounds))
    (SWAN64_K128_decrypt_body rounds (_key.take ((2 * rounds + 1) * 4))) n
    (SWAN64_K128_decrypt_init cipher)

/-- The function `SWAN64_K128_decrypt_rounds`: the eight bytes written to `plain`, or `none`
when the loop has not exited within `fuel` iterations. -/
def SWAN64_K128_decrypt_rounds (fuel : Nat) (cipher _key : List Nat) (rounds : Nat) :
    Option (List Nat) :=
  (loopResult (fun s => decide (s.i ≤ rounds))
    (SWAN64_K128_decrypt_body rounds (_key.take ((2 * rounds + 1) * 4))) fuel
    (SWAN64_K128_decrypt_init cipher)).map
    (fun s => [rd s.L 0, rd s.L 1, rd s.L 2, rd s.L 3, rd s.R 0, rd s.R 1, rd s.R 2, rd s.R 3])

/-- The body of the round loop of `SWAN64_K256_encrypt_rounds`, followed by `i++`. -/
def SWAN64_K256_encrypt_body (bigEndian : Bool) (s : EncState) : EncState :=
  -- first half round
  let tempL := [rd s.L 0, rd s.L 1, rd s.L 2, rd s.L 3]
  let tempL := ShiftLanes tempL
  let key := RotateKeyByte s.key KEY256
  let subkey := [rd key 0, rd key 1, rd key 2, rd key 3]
  let round_constant := u32 (s.round_constant + DELTA)
  let subkey := AddRoundConstant bigEndian subkey round_constant
  let key := key.set 0 (rd subkey 0)
  let key := key.set 1 (rd subkey 1)
  let key := key.set 2 (rd subkey 2)
  let key := key.set 3 (rd subkey 3)
  let tempL := [rd tempL 0 ^^^ rd subkey 0, rd tempL 1 ^^^ rd subkey 1,
    rd tempL 2 ^^^ rd subkey 2, rd tempL 3 ^^^ rd subkey 3]
  let used := s.used ++ [subkey]
  let tempL := Beta tempL
  let tempL := SwitchLanes tempL
  let R := [rd s.R 0 ^^^ rd tempL 0, rd s.R 1 ^^^ rd tempL 1,
    rd s.R 2 ^^^ rd tempL 2, rd s.R 3 ^^^ rd tempL 3]
  -- second half round
  let tempR := [rd R 0, rd R 1, rd R 2, rd R 3]
  let tempR := ShiftLanes tempR
  let key := RotateKeyByte key KEY256
  let subkey := [rd key 0, rd key 1, rd key 2, rd key 3]
  let round_constant := u32 (round_constant + DELTA)
  let subkey := AddRoundConstant bigEndian subkey round_constant
  let key := key.set 0 (rd subkey 0)
  let key := key.set 1 (rd subkey 1)
  let key := key.set 2 (rd subkey 2)
  let key := key.set 3 (rd subkey 3)
  let tempR := [rd tempR 0 ^^^ rd subkey 0, rd tempR 1 ^^^ rd subkey 1,
    rd tempR 2 ^^^ rd subkey 2, rd tempR 3 ^^^ rd subkey 3]
  let used := used ++ [subkey]
  let tempR := Beta tempR
  let tempR := SwitchLanes tempR
  let L := [rd s.L 0 ^^^ rd tempR 0, rd s.L 1 ^^^ rd tempR 1,
    rd s.L 2 ^^^ rd tempR 2, rd s.L 3 ^^^ rd tempR 3]
  { i := u8 (s.i + 1), L := L, R := R, key := key, round_constant := round_constant,
    used := used }

/-- The locals of `SWAN64_K256_encrypt_rounds` on entry to its loop. -/
def SWAN64_K256_encrypt_init (plain _key : List Nat) : EncState :=
  { i := 1
    L := [rd plain 0, rd plain 1, rd plain 2, rd plain 3]
    R := [rd plain 4, rd plain 5, rd plain 6, rd plain 7]
    key := _key.take (KEY256 / 8)
    round_constant := 0
    used := [] }

/-- The locals of `SWAN64_K256_encrypt_rounds` after at most `n` iterations of
`for (i = 1; i <= rounds; i++)`. -/
def SWAN64_K256_encrypt_loop (bigEndian : Bool) (n : Nat) (plain _key : List Nat)
    (rounds : Nat) : EncState :=
  loopFor (fun s => decide (s.i ≤ rounds)) (SWAN64_K256_encrypt_body bigEndian) n
    (SWAN64_K256_encrypt_init plain _key)

/-- The function `SWAN64_K256_encrypt_rounds`: the eight bytes written to `cipher`, or `none`
when the loop has not exited within `fuel` iterations. -/
def SWAN64_K256_encrypt_rounds (bigEndian : Bool) (fuel : Nat) (plain _key : List Nat)
    (rounds : Nat) : Option (List Nat) :=
  (loopResult (fun s => decide (s.i ≤ rounds)) (SWAN64_K256_encrypt_body bigEndian) fuel
    (SWAN64_K256_encrypt_init plain _key)).map
    (fun s => [rd s.L 0, rd s.L 1, rd s.L 2, rd s.L 3, rd s.R 0, rd s.R 1, rd s.R 2, rd s.R 3])

/-- The body of the round loop of `SWAN64_K256_decrypt_rounds`, followed by `i++`; the index
expressions are evaluated in `int`. -/
def SWAN64_K256_decrypt_body (rounds : Nat) (ekey : List Nat) (s : DecState) : DecState :=
  -- first half round
  let tempR := [rd s.R 0, rd s.R 1, rd s.R 2, rd s.R 3]
  let tempR := ShiftLanes tempR
  let j := Int.toNat (2 * (rounds : Int) + 1 - (2 * (s.i : Int) - 1))
  let subkey := [rd ekey (4 * j + 0), rd ekey (4 * j + 1), rd ekey (4 * j + 2),
    rd ekey (4 * j + 3)]
  let reads := s.reads ++ [j]
  let tempR := [rd tempR 0 ^^^ rd subkey 0, rd tempR 1 ^^^ rd subkey 1,
    rd tempR 2 ^^^ rd subkey 2, rd tempR 3 ^^^ rd subkey 3]
  let tempR := Beta tempR
  let tempR := SwitchLanes tempR
  let L := [rd s.L 0 ^^^ rd tempR 0, rd s.L 1 ^^^ rd tempR 1,
    rd s.L 2 ^^^ rd tempR 2, rd s.L 3 ^^^ rd tempR 3]
  let tempL := [rd L 0, rd L 1, rd L 2, rd L 3]
  -- second half round
  let tempL := ShiftLanes tempL
  let j := Int.toNat (2 * (rounds : Int) + 1 - 2 * (s.i : Int))
  let subkey := [rd ekey (4 * j + 0), rd ekey (4 * j + 1), rd ekey (4 * j + 2),
    rd ekey (4 * j + 3)]
  let reads := reads ++ [j]
  let tempL := [rd tempL 0 ^^^ rd subkey 0, rd tempL 1 ^^^ rd subkey 1,
    rd tempL 2 ^^^ rd subkey 2, rd tempL 3 ^^^ rd subkey 3]
  let tempL := Beta tempL
  let tempL := SwitchLanes tempL
  let R := [rd tempL 0 ^^^ rd s.R 0, rd tempL 1 ^^^ rd s.R 1,
    rd tempL 2 ^^^ rd s.R 2, rd tempL 3 ^^^ rd s.R 3]
  { i := u8 (s.i + 1), L := L, R := R, reads := reads }

/-- The locals of `SWAN64_K256_decrypt_rounds` on entry to its loop. -/
def SWAN64_K256_decrypt_init (cipher : List Nat) : DecState :=
  { i := 1
    L := [rd cipher 0, rd cipher 1, rd cipher 2, rd cipher 3]
    R := [rd cipher 4, rd cipher 5, rd cipher 6, rd cipher 7]
    reads := [] }

/-- The locals of `SWAN64_K256_decrypt_rounds` after at most `n` iterations of its loop; the
local `ekey` is the copy of the first `(2 * rounds + 1) * 4` bytes of `_key`. -/
def SWAN64_K256_decrypt_loop (n : Nat) (cipher _key : List Nat) (rounds : Nat) : DecState :=
  loopFor (fun s => decide (s.i ≤ rounds))
    (SWAN64_K256_decrypt_body rounds (_key.take ((2 * rounds + 1) * 4))) n
    (SWAN64_K256_decrypt_init cipher)

/-- The function `SWAN64_K256_decrypt_rounds`: the eight bytes written to `plain`, or `none`
when the loop has not exited within `fuel` iterations. -/
def SWAN64_K256_decrypt_rounds (fuel : Nat) (cipher _key : List Nat) (rounds : Nat) :
    Option (List Nat) :=
  (loopResult (fun s => decide (s.i ≤ rounds))
    (SWAN64_K256_decrypt_body rounds (_key.take ((2 * rounds + 1) * 4))) fuel
    (SWAN64_K256_decrypt_init cipher)).map
    (fun s => [rd s.L 0, rd s.L 1, rd s.L 2, rd s.L 3, rd s.R 0, rd s.R 1, rd s.R 2, rd s.R 3])

/-! ## Vocabulary of the properties -/

/-- A buffer of exactly `n` bytes. -/
def IsBytes (n : Nat) (l : List Nat) : Prop := l.length = n ∧ ∀ x ∈ l, x < 256

instance (n : Nat) (l : List Nat) : Decidable (IsBytes n l) := by
  unfold IsBytes; infer_instance

/-- Bit `j` of `x`, as `0` or `1`. -/
def bit (x j : Nat) : Nat := (x.testBit j).toNat

/-- The S-box input or output at bit position `j`: bit `j` of the four lanes, lane 0 least
significant. -/
def nibble (a : List Nat) (j : Nat) : Nat :=
  bit (rd a 0) j + 2 * bit (rd a 1) j + 4 * bit (rd a 2) j + 8 * bit (rd a 3) j

/-- The table `SWAN_SBox` of the comment above `Beta`. -/
def SWAN_SBox : List Nat :=
  [0x01, 0x02, 0x0C, 0x05, 0x07, 0x08, 0x0A, 0x0F, 0x04, 0x0D, 0x0B, 0x0E, 0x09, 0x06, 0x00, 0x03]

/-- The table read off `Beta`: entry `x` is the output nibble at bit position 0 when the
four lanes carry the four bits of `x`. -/
def BetaTable : List Nat :=
  (List.range 16).map (fun x => nibble (Beta [bit x 0, bit x 1, bit x 2, bit x 3]) 0)

/-- Circular left rotation of an 8-bit value by `n`: bit `k` of `x` moves to bit
`(k + n) mod 8`. -/
def rotl8 (x n : Nat) : Nat :=
  ((List.range 8).map (fun k => bit x k * 2 ^ ((k + n) % 8))).sum

/-- Circular right rotation of an 8-bit value by `n`: bit `k` of `x` moves to bit
`(k + 8 - n mod 8) mod 8`. -/
def rotr8 (x n : Nat) : Nat :=
  ((List.range 8).map (fun k => bit x k * 2 ^ ((k + 8 - n % 8) % 8))).sum

/-- The candidate inverse of `ShiftLanes`: each lane is sent through `ROL8` by the
complementary amount. -/
def InvShiftLanes (a : List Nat) : List Nat :=
  [rd a 0, u8 (ROL8 (rd a 1) (8 - A)), u8 (ROL8 (rd a 2) (8 - B)), u8 (ROL8 (rd a 3) (8 - C))]

/-- The candidate inverse of `SwitchLanes`: the lanes move one position to the left. -/
def InvSwitchLanes (a : List Nat) : List Nat := [rd a 1, rd a 2, rd a 3, rd a 0]

/-- Entry `j` of a table of four-byte entries stored as a flat byte array. -/
def entry (T : List Nat) (j : Nat) : List Nat :=
  [rd T (4 * j), rd T (4 * j + 1), rd T (4 * j + 2), rd T (4 * j + 3)]

/-- The round constant `c_j` of the documented schedule: `c_0 = 0` and
`c_j = (c_{j-1} + 0x9e3779b9) mod 2^32`. -/
def schedConst : Nat → Nat
  | 0 => 0
  | j + 1 => (schedConst j + 0x9e3779b9) % 2 ^ 32

/-- The key state `state_j` of the documented schedule for a key of `keysize` bits:
`state_0 = K`, and `state_j` is `RotateKeyByte(state_{j-1})` with its first four bytes
replaced by `AddRoundConstant(first 4 bytes of RotateKeyByte(state_{j-1}), c_j)`. -/
def schedState (bigEndian : Bool) (keysize : Nat) (K : List Nat) : Nat → List Nat
  | 0 => K
  | j + 1 =>
    let rotated := RotateKeyByte (schedState bigEndian keysize K j) keysize
    AddRoundConstant bigEndian (rotated.take 4) (schedConst (j + 1)) ++ rotated.drop 4

/-- The subkey `sk_j` of the documented schedule, for `j ≥ 1`:
`AddRoundConstant(first 4 bytes of RotateKeyByte(state_{j-1}), c_j)`. -/
def schedSubkey (bigEndian : Bool) (keysize : Nat) (K : List Nat) (j : Nat) : List Nat :=
  AddRoundConstant bigEndian
    ((RotateKeyByte (schedState bigEndian keysize K (j - 1)) keysize).take 4) (schedConst j)

/-- The four-byte XOR written out lane by lane in the round functions. -/
def xor4 (x y : List Nat) : List Nat :=
  [rd x 0 ^^^ rd y 0, rd x 1 ^^^ rd y 1, rd x 2 ^^^ rd y 2, rd x 3 ^^^ rd y 3]

/-- The half-round function: `SwitchLanes(Beta(ShiftLanes(X) xor k))`. -/
def roundF (X k : List Nat) : List Nat :=
  SwitchLanes (Beta (xor4 (ShiftLanes [rd X 0, rd X 1, rd X 2, rd X 3]) k))

/-- One step of the inline schedule exactly as the loop bodies write it: the subkey drawn
from key buffer `key` with the accumulator at `rc`. -/
def stepSubkey (bigEndian : Bool) (keylength : Nat) (key : List Nat) (rc : Nat) : List Nat :=
  let key := RotateKeyByte key keylength
  AddRoundConstant bigEndian [rd key 0, rd key 1, rd key 2, rd key 3] (u32 (rc + DELTA))

/-- One step of the inline schedule exactly as the loop bodies write it: the key buffer
after the subkey has been written back. -/
def stepKey (bigEndian : Bool) (keylength : Nat) (key : List Nat) (rc : Nat) : List Nat :=
  let subkey := stepSubkey bigEndian keylength key rc
  let key := RotateKeyByte key keylength
  let key := key.set 0 (rd subkey 0)
  let key := key.set 1 (rd subkey 1)
  let key := key.set 2 (rd subkey 2)
  let key := key.set 3 (rd subkey 3)
  key

/-- The key buffer and accumulator after `j` steps of the inline schedule. -/
def stepState (bigEndian : Bool) (keylength : Nat) (K : List Nat) : Nat → List Nat × Nat
  | 0 => (K, 0)
  | j + 1 =>
    let s := stepState bigEndian keylength K j
    (stepKey bigEndian keylength s.1 s.2, u32 (s.2 + DELTA))

/-- The subkey drawn in step `j + 1` of the inline schedule. -/
def stepSub (bigEndian : Bool) (keylength : Nat) (K : List Nat) (j : Nat) : List Nat :=
  let s := stepState bigEndian keylength K j
  stepSubkey bigEndian keylength s.1 s.2

/-- One round of encryption in terms of `roundF` and the inline schedule; the loop bodies of
both encrypt functions are shown equal to it (`encrypt_body_K128`, `encrypt_body_K256`). -/
def encRound (bigEndian : Bool) (keylength : Nat) (s : EncState) : EncState :=
  let sk1 := stepSubkey bigEndian keylength s.key s.round_constant
  let key1 := stepKey bigEndian keylength s.key s.round_constant
  let rc1 := u32 (s.round_constant + DELTA)
  let sk2 := stepSubkey bigEndian keylength key1 rc1
  let R := xor4 s.R (roundF s.L sk1)
  let L := xor4 s.L (roundF R sk2)
  { i := u8 (s.i + 1), L := L, R := R, key := stepKey bigEndian keylength key1 rc1,
    round_constant := u32 (rc1 + DELTA), used := s.used ++ [sk1] ++ [sk2] }

/-- One round of decryption in terms of `roundF` and table entries; the loop bodies of both
decrypt functions are shown equal to it (`decrypt_body_K128`, `decrypt_body_K256`). -/
def decRound (rounds : Nat) (ekey : List Nat) (s : DecState) : DecState :=
  let j1 := Int.toNat (2 * (rounds : Int) + 1 - (2 * (s.i : Int) - 1))
  let j2 := Int.toNat (2 * (rounds : Int) + 1 - 2 * (s.i : Int))
  let L := xor4 s.L (roundF s.R (entry ekey j1))
  let R := xor4 (roundF L (entry ekey j2)) s.R
  { i := u8 (s.i + 1), L := L, R := R, reads := s.reads ++ [j1] ++ [j2] }

/-- The eight output bytes stored from the two branches. -/
def output (L R : List Nat) : List Nat :=
  [rd L 0, rd L 1, rd L 2, rd L 3, rd R 0, rd R 1, rd R 2, rd R 3]

/-! ## Vocabulary of the behavioural properties -/

/-- The half-round function of the reference description:
`F(X, k) = SwitchLanes(Beta(ShiftLanes(X) xor k))`. -/
def feistelF (X k : List Nat) : List Nat := SwitchLanes (Beta (xor4 (ShiftLanes X) k))

/-- The reference Feistel iteration of encryption: `(L_0, R_0)` are given and, for
`i = 1, 2, ...`, `R_i = R_{i-1} xor F(L_{i-1}, sk_{2i-1})` and then
`L_i = L_{i-1} xor F(R_i, sk_{2i})`. -/
def refEncrypt (sk : Nat → List Nat) (L0 R0 : List Nat) : Nat → List Nat × List Nat
  | 0 => (L0, R0)
  | i + 1 =>
    let p := refEncrypt sk L0 R0 i
    let R := xor4 p.2 (feistelF p.1 (sk (2 * (i + 1) - 1)))
    let L := xor4 p.1 (feistelF R (sk (2 * (i + 1))))
    (L, R)

/-- The reference iteration of decryption with a table `T` of `2r + 1` entries: round `i`
sets `L := L xor F(R, T[(2r+1) - (2i-1)])` and then `R := R xor F(L, T[(2r+1) - 2i])` with
the updated `L`. -/
def refDecrypt (T : List Nat) (r : Nat) (L0 R0 : List Nat) : Nat → List Nat × List Nat
  | 0 => (L0, R0)
  | i + 1 =>
    let p := refDecrypt T r L0 R0 i
    let L := xor4 p.1 (feistelF p.2 (entry T ((2 * r + 1) - (2 * (i + 1) - 1))))
    let R := xor4 p.2 (feistelF L (entry T ((2 * r + 1) - 2 * (i + 1))))
    (L, R)

/-- The little-endian encoding of a 32-bit value in four bytes. -/
def encodeLE (v : Nat) : List Nat := [v % 256, v / 2 ^ 8 % 256, v / 2 ^ 16 % 256, v / 2 ^ 24 % 256]

/-- The big-endian encoding of a 32-bit value in four bytes. -/
def encodeBE (v : Nat) : List Nat := [v / 2 ^ 24 % 256, v / 2 ^ 16 % 256, v / 2 ^ 8 % 256, v % 256]

/-- The accesses of one call of `RotateKeyByte`: the key buffer, the indices of `key` it has
read and the indices of `key` it has written, in program order. -/
structure RotateTrace where
  key : List Nat
  reads : List Nat
  writes : List Nat
deriving DecidableEq, Repr

/-- The function `RotateKeyByte` with every access to `key` logged: the same three loops,
each read `key[j]` appending `j` to `reads` and each store `key[j] = v` appending `j` to
`writes`. -/
def RotateKeyByte_traced (key : List Nat) (keylength : Nat) : RotateTrace :=
  let s1 := (List.range 3).foldl
    (fun (s : List Nat × RotateTrace) i =>
      (s.1.set i (rd s.2.key i), { s.2 with reads := s.2.reads ++ [i] }))
    ([0, 0, 0], { key := key, reads := [], writes := [] })
  let temp := s1.1
  let t2 := (List.range (keylength / 8 - 1)).foldl
    (fun (t : RotateTrace) i =>
      { key := t.key.set i (rd t.key (i + 3)), reads := t.reads ++ [i + 3],
        writes := t.writes ++ [i] })
    s1.2
  let t3 := (List.range 3).foldl
    (fun (t : RotateTrace) i =>
      { t with key := t.key.set (keylength / 8 - (3 - i)) (rd temp i),
               writes := t.writes ++ [keylength / 8 - (3 - i)] })
    t2
  t3

/-- A read `key[i]` whose index is computed in `int` and may be negative: `below d` is the
byte that lies `d` positions before the start of the buffer. -/
def rdAt (below : Nat → Nat) (key : List Nat) (i : Int) : Nat :=
  if i < 0 then below (Int.toNat (-i)) else rd key (Int.toNat i)

/-- The function `InvRotateKeyByte`: its three loops, in order.  The second loop runs `i`
from `keylength / 8 - 1` down to `1` and reads `key[i - 3]`, so its last two reads are at
`-1` and `-2`, before the buffer; what it stores from them at `2` and `1` is overwritten by
the third loop. -/
def InvRotateKeyByte (below : Nat → Nat) (key : List Nat) (keylength : Nat) : List Nat :=
  let temp := (List.range 3).foldl
    (fun t i => t.set i (rd key (keylength / 8 - (3 - i)))) [0, 0, 0]
  let key := ((List.range' 1 (keylength / 8 - 1)).reverse).foldl
    (fun k i => k.set i (rdAt below k ((i : Int) - 3))) key
  let key := (List.range 3).foldl (fun k i => k.set i (rd temp i)) key
  key

/-! ## Basic facts about the memory model -/

theorem list4_eq (a : List Nat) (h : a.length = 4) : a = [rd a 0, rd a 1, rd a 2, rd a 3] := by
  match a, h with
  | [_, _, _, _], _ => rfl

theorem rd_lt_of_isBytes {n : Nat} {l : List Nat} (h : IsBytes n l) (i : Nat) : rd l i < 256 := by
  unfold rd
  rw [List.getD_eq_getElem?_getD]
  by_cases hi : i < l.length
  · rw [List.getElem?_eq_getElem hi]
    exact h.2 _ (List.getElem_mem hi)
  · rw [List.getElem?_eq_none (by omega)]
    decide

theorem isBytes4_of (b0 b1 b2 b3 : Nat) (h0 : b0 < 256) (h1 : b1 < 256) (h2 : b2 < 256)
    (h3 : b3 < 256) : IsBytes 4 [b0, b1, b2, b3] := by
  refine ⟨rfl, ?_⟩
  intro x hx
  simp only [List.mem_cons, List.mem_singleton, List.not_mem_nil, or_false] at hx
  rcases hx with rfl | rfl | rfl | rfl <;> assumption

/-! ## The nonlinear layer -/

theorem not8_eq (x : Nat) : not8 x = 2 ^ 8 - (x % 256 + 1) := by
  unfold not8; omega

theorem testBit_not8 (x j : Nat) (hj : j < 8) : (not8 x).testBit j = !x.testBit j := by
  rw [not8_eq, Nat.testBit_two_pow_sub_succ (by omega)]
  have h256 : x % 256 = x % 2 ^ 8 := rfl
  rw [h256, Nat.testBit_mod_two_pow]
  simp [hj]

theorem Beta_nibble (a : List Nat) (j : Nat) (hj : j < 8) :
    nibble (Beta a) j = rd SWAN_SBox (nibble a j) := by
  unfold nibble Beta bit
  simp only [rd, List.getD_cons_zero, List.getD_cons_succ, testBit_not8 _ _ hj,
    Nat.testBit_xor, Nat.testBit_and]
  generalize (a.getD 0 0).testBit j = p0
  generalize (a.getD 1 0).testBit j = p1
  generalize (a.getD 2 0).testBit j = p2
  generalize (a.getD 3 0).testBit j = p3
  revert p0 p1 p2 p3
  decide

theorem nibble_lt (a : List Nat) (j : Nat) : nibble a j < 16 := by
  unfold nibble bit
  cases (rd a 0).testBit j <;> cases (rd a 1).testBit j <;> cases (rd a 2).testBit j <;>
    cases (rd a 3).testBit j <;> decide

theorem SBox_injective : ∀ x < 16, ∀ y < 16, rd SWAN_SBox x = rd SWAN_SBox y → x = y := by
  decide

theorem bits_of_nibble (a b : List Nat) (j : Nat) (h : nibble a j = nibble b j) (k : Nat)
    (hk : k < 4) : (rd a k).testBit j = (rd b k).testBit j := by
  unfold nibble bit at h
  have hk4 : k = 0 ∨ k = 1 ∨ k = 2 ∨ k = 3 := by omega
  revert h
  rcases hk4 with rfl | rfl | rfl | rfl <;>
  · cases (rd a 0).testBit j <;> cases (rd a 1).testBit j <;> cases (rd a 2).testBit j <;>
      cases (rd a 3).testBit j <;> cases (rd b 0).testBit j <;> cases (rd b 1).testBit j <;>
      cases (rd b 2).testBit j <;> cases (rd b 3).testBit j <;> simp

theorem byte_eq_of_testBit (x y : Nat) (hx : x < 256) (hy : y < 256)
    (h : ∀ j < 8, x.testBit j = y.testBit j) : x = y := by
  apply Nat.eq_of_testBit_eq
  intro j
  by_cases hj : j < 8
  · exact h j hj
  · have h8 : 2 ^ 8 ≤ 2 ^ j := Nat.pow_le_pow_right (by decide) (by omega)
    rw [Nat.testBit_lt_two_pow (by omega : x < 2 ^ j), Nat.testBit_lt_two_pow (by omega : y < 2 ^ j)]

theorem Beta_injective (a b : List Nat) (ha : IsBytes 4 a) (hb : IsBytes 4 b)
    (h : Beta a = Beta b) : a = b := by
  have hbits : ∀ k < 4, rd a k = rd b k := by
    intro k hk
    apply byte_eq_of_testBit _ _ (rd_lt_of_isBytes ha k) (rd_lt_of_isBytes hb k)
    intro j hj
    apply bits_of_nibble a b j _ k hk
    apply SBox_injective _ (nibble_lt a j) _ (nibble_lt b j)
    rw [← Beta_nibble a j hj, ← Beta_nibble b j hj, h]
  rw [list4_eq a ha.1, list4_eq b hb.1, hbits 0 (by decide), hbits 1 (by decide),
    hbits 2 (by decide), hbits 3 (by decide)]

theorem lt_256_of_testBit (x : Nat) (h : ∀ j, 8 ≤ j → x.testBit j = false) : x < 256 := by
  have := Nat.lt_pow_two_of_testBit x (n := 8) (fun i hi => by simp [h i hi])
  simpa using this

theorem testBit_byte_high (x j : Nat) (hx : x < 256) (hj : 8 ≤ j) : x.testBit j = false := by
  have h8 : 2 ^ 8 ≤ 2 ^ j := Nat.pow_le_pow_right (by decide) hj
  exact Nat.testBit_lt_two_pow (by omega)

theorem not8_lt (x : Nat) : not8 x < 256 := by
  unfold not8; omega

theorem Beta_isBytes (a : List Nat) (ha : IsBytes 4 a) : IsBytes 4 (Beta a) := by
  have h0 := fun j hj => testBit_byte_high _ j (rd_lt_of_isBytes ha 0) hj
  have h1 := fun j hj => testBit_byte_high _ j (rd_lt_of_isBytes ha 1) hj
  have h2 := fun j hj => testBit_byte_high _ j (rd_lt_of_isBytes ha 2) hj
  have h3 := fun j hj => testBit_byte_high _ j (rd_lt_of_isBytes ha 3) hj
  unfold Beta
  apply isBytes4_of
  · exact not8_lt _
  all_goals
    apply lt_256_of_testBit
    intro j hj
    simp [Nat.testBit_xor, Nat.testBit_and, h0 j hj, h1 j hj, h2 j hj, h3 j hj]

theorem finite_lanes : Finite {a : List Nat // IsBytes 4 a} := by
  apply Finite.of_injective
    (fun (a : {a : List Nat // IsBytes 4 a}) (k : Fin 4) =>
      (⟨rd a.1 k.1, rd_lt_of_isBytes a.2 k.1⟩ : Fin 256))
  intro a b h
  apply Subtype.ext
  have hk : ∀ k < 4, rd a.1 k = rd b.1 k := by
    intro k hk
    have := congrFun h ⟨k, hk⟩
    simpa using this
  rw [list4_eq a.1 a.2.1, list4_eq b.1 b.2.1, hk 0 (by decide), hk 1 (by decide),
    hk 2 (by decide), hk 3 (by decide)]

theorem Beta_surjective (b : List Nat) (hb : IsBytes 4 b) : ∃ a, IsBytes 4 a ∧ Beta a = b := by
  haveI := finite_lanes
  have hinj : Function.Injective
      (fun (a : {a : List Nat // IsBytes 4 a}) =>
        (⟨Beta a.1, Beta_isBytes a.1 a.2⟩ : {a : List Nat // IsBytes 4 a})) := by
    intro x y hxy
    exact Subtype.ext (Beta_injective x.1 y.1 x.2 y.2 (congrArg Subtype.val hxy))
  obtain ⟨a, ha⟩ := (Finite.injective_iff_surjective.mp hinj) ⟨b, hb⟩
  exact ⟨a.1, a.2, congrArg Subtype.val ha⟩

set_option maxRecDepth 100000 in
theorem BetaTable_perm : BetaTable.length = 16 ∧ ∀ v < 16, BetaTable.count v = 1 := by
  decide

set_option maxRecDepth 100000 in
theorem ROL8_inverse : ∀ x < 256,
    u8 (ROL8 (u8 (ROL8 x A)) (8 - A)) = x ∧ u8 (ROL8 (u8 (ROL8 x B)) (8 - B)) = x
    ∧ u8 (ROL8 (u8 (ROL8 x C)) (8 - C)) = x ∧ u8 (ROL8 (u8 (ROL8 x (8 - A))) A) = x
    ∧ u8 (ROL8 (u8 (ROL8 x (8 - B))) B) = x ∧ u8 (ROL8 (u8 (ROL8 x (8 - C))) C) = x := by
  decide

set_option maxRecDepth 100000 in
theorem ROL8_rotr8 : ∀ x < 256,
    u8 (ROL8 x A) = rotr8 x 1 ∧ u8 (ROL8 x B) = rotr8 x 3 ∧ u8 (ROL8 x C) = rotr8 x 5 := by
  decide

set_option maxRecDepth 100000 in
theorem rotr8_rotl8 : ∀ x < 256,
    rotr8 x 1 = rotl8 x 7 ∧ rotr8 x 3 = rotl8 x 5 ∧ rotr8 x 5 = rotl8 x 3 := by
  decide

theorem SwitchLanes_eq (old : List Nat) (h : old.length = 4) :
    SwitchLanes old = [rd old 3, rd old 0, rd old 1, rd old 2] := by
  match old, h with
  | [_, _, _, _], _ => rfl

theorem ShiftLanes_eq (a : List Nat) (h : a.length = 4) :
    ShiftLanes a = [rd a 0, u8 (ROL8 (rd a 1) A), u8 (ROL8 (rd a 2) B), u8 (ROL8 (rd a 3) C)] := by
  match a, h with
  | [_, _, _, _], _ => rfl

theorem ShiftLanes_inverse (a : List Nat) (ha : IsBytes 4 a) :
    InvShiftLanes (ShiftLanes a) = a ∧ ShiftLanes (InvShiftLanes a) = a := by
  have h1 := ROL8_inverse _ (rd_lt_of_isBytes ha 1)
  have h2 := ROL8_inverse _ (rd_lt_of_isBytes ha 2)
  have h3 := ROL8_inverse _ (rd_lt_of_isBytes ha 3)
  constructor
  · rw [ShiftLanes_eq a ha.1]
    unfold InvShiftLanes
    conv_rhs => rw [list4_eq a ha.1]
    simp only [rd, List.getD_cons_zero, List.getD_cons_succ] at *
    rw [h1.1, h2.2.1, h3.2.2.1]
  · rw [ShiftLanes_eq (InvShiftLanes a) rfl]
    unfold InvShiftLanes
    conv_rhs => rw [list4_eq a ha.1]
    simp only [rd, List.getD_cons_zero, List.getD_cons_succ] at *
    rw [h1.2.2.2.1, h2.2.2.2.2.1, h3.2.2.2.2.2]

theorem SwitchLanes_inverse (a : List Nat) (ha : a.length = 4) :
    InvSwitchLanes (SwitchLanes a) = a ∧ SwitchLanes (InvSwitchLanes a) = a := by
  match a, ha with
  | [_, _, _, _], _ => exact ⟨rfl, rfl⟩

/-! ## The layers: the claims -/

/-- Claim C4: at every bit position `j` in `0..7`, the nibble formed from bit `j` of the four
output lanes of `Beta(a)` is `S[x]`, where `x` is the nibble formed from bit `j` of the four
input lanes and `S = [1,2,12,5,7,8,10,15,4,13,11,14,9,6,0,3]`. -/
theorem C4_Beta_realises_sbox (a : List Nat) (j : Nat) (ha : IsBytes 4 a) (hj : j < 8) :
    nibble (Beta a) j = rd [1, 2, 12, 5, 7, 8, 10, 15, 4, 13, 11, 14, 9, 6, 0, 3] (nibble a j) :=
  Beta_nibble a j hj

theorem C4_Beta_realises_sbox_witness :
    nibble (Beta [0x5a, 0x3c, 0xf0, 0x99]) 3
      = rd [1, 2, 12, 5, 7, 8, 10, 15, 4, 13, 11, 14, 9, 6, 0, 3]
          (nibble [0x5a, 0x3c, 0xf0, 0x99] 3) :=
  C4_Beta_realises_sbox [0x5a, 0x3c, 0xf0, 0x99] 3 (by decide) (by decide)

/-- Claim C5: the 16-entry table read off the formulas of `Beta` contains each value `0..15`
exactly once, and `Beta` is injective and surjective on the four-byte lane arrays. -/
theorem C5_Beta_permutation :
    (BetaTable.length = 16 ∧ ∀ v < 16, BetaTable.count v = 1)
      ∧ (∀ a b, IsBytes 4 a → IsBytes 4 b → Beta a = Beta b → a = b)
      ∧ (∀ b, IsBytes 4 b → ∃ a, IsBytes 4 a ∧ Beta a = b) :=
  ⟨BetaTable_perm, Beta_injective, Beta_surjective⟩

/-- What `ShiftLanes` does: `ROL8` rotates to the right, so lanes 1, 2, 3 are rotated right
by 1, 3, 5 bits, which is left by 7, 5, 3. -/
theorem ShiftLanes_rotr8 (a : List Nat) (ha : IsBytes 4 a) :
    ShiftLanes a = [rd a 0, rotr8 (rd a 1) 1, rotr8 (rd a 2) 3, rotr8 (rd a 3) 5]
      ∧ ShiftLanes a = [rd a 0, rotl8 (rd a 1) 7, rotl8 (rd a 2) 5, rotl8 (rd a 3) 3] := by
  have h1 := ROL8_rotr8 _ (rd_lt_of_isBytes ha 1)
  have h2 := ROL8_rotr8 _ (rd_lt_of_isBytes ha 2)
  have h3 := ROL8_rotr8 _ (rd_lt_of_isBytes ha 3)
  have g1 := rotr8_rotl8 _ (rd_lt_of_isBytes ha 1)
  have g2 := rotr8_rotl8 _ (rd_lt_of_isBytes ha 2)
  have g3 := rotr8_rotl8 _ (rd_lt_of_isBytes ha 3)
  rw [ShiftLanes_eq a ha.1, h1.1, h2.2.1, h3.2.2, g1.1, g2.2.1, g3.2.2]
  exact ⟨rfl, rfl⟩

theorem ShiftLanes_rotr8_witness :
    ShiftLanes [0, 1, 0, 0] = [rd [0, 1, 0, 0] 0, rotr8 (rd [0, 1, 0, 0] 1) 1,
        rotr8 (rd [0, 1, 0, 0] 2) 3, rotr8 (rd [0, 1, 0, 0] 3) 5]
      ∧ ShiftLanes [0, 1, 0, 0] = [rd [0, 1, 0, 0] 0, rotl8 (rd [0, 1, 0, 0] 1) 7,
        rotl8 (rd [0, 1, 0, 0] 2) 5, rotl8 (rd [0, 1, 0, 0] 3) 3] :=
  ShiftLanes_rotr8 [0, 1, 0, 0] (by decide)

/-- Claim C6 at the input `[0, 1, 0, 0]`: `ShiftLanes` returns `[0, 128, 0, 0]`, lane 1
rotated right by one bit, where rotation to the left gives `[0, 2, 0, 0]`. -/
theorem C6_ShiftLanes_at_0100 :
    ShiftLanes [0, 1, 0, 0] = [0, 128, 0, 0]
      ∧ [rd [0, 1, 0, 0] 0, rotl8 (rd [0, 1, 0, 0] 1) 1, rotl8 (rd [0, 1, 0, 0] 2) 3,
          rotl8 (rd [0, 1, 0, 0] 3) 5] = [0, 2, 0, 0] := by
  decide

/-- Claim C7: `SwitchLanes(old) = [old[3], old[0], old[1], old[2]]` for every four-byte lane
array. -/
theorem C7_SwitchLanes_rotates_right (old : List Nat) (h : IsBytes 4 old) :
    SwitchLanes old = [rd old 3, rd old 0, rd old 1, rd old 2] :=
  SwitchLanes_eq old h.1

theorem C7_SwitchLanes_rotates_right_witness :
    SwitchLanes [10, 20, 30, 40]
      = [rd [10, 20, 30, 40] 3, rd [10, 20, 30, 40] 0, rd [10, 20, 30, 40] 1,
          rd [10, 20, 30, 40] 2] :=
  C7_SwitchLanes_rotates_right [10, 20, 30, 40] (by decide)

theorem u8_lt (x : Nat) : u8 x < 256 := Nat.mod_lt _ (by decide)

theorem ShiftLanes_isBytes (a : List Nat) (ha : IsBytes 4 a) : IsBytes 4 (ShiftLanes a) := by
  rw [ShiftLanes_eq a ha.1]
  exact isBytes4_of _ _ _ _ (rd_lt_of_isBytes ha 0) (u8_lt _) (u8_lt _) (u8_lt _)

theorem InvShiftLanes_isBytes (a : List Nat) (ha : IsBytes 4 a) :
    IsBytes 4 (InvShiftLanes a) :=
  isBytes4_of _ _ _ _ (rd_lt_of_isBytes ha 0) (u8_lt _) (u8_lt _) (u8_lt _)

theorem SwitchLanes_isBytes (a : List Nat) (ha : IsBytes 4 a) : IsBytes 4 (SwitchLanes a) := by
  rw [SwitchLanes_eq a ha.1]
  exact isBytes4_of _ _ _ _ (rd_lt_of_isBytes ha 3) (rd_lt_of_isBytes ha 0)
    (rd_lt_of_isBytes ha 1) (rd_lt_of_isBytes ha 2)

theorem InvSwitchLanes_isBytes (a : List Nat) (ha : IsBytes 4 a) :
    IsBytes 4 (InvSwitchLanes a) :=
  isBytes4_of _ _ _ _ (rd_lt_of_isBytes ha 1) (rd_lt_of_isBytes ha 2)
    (rd_lt_of_isBytes ha 3) (rd_lt_of_isBytes ha 0)

/-- Claim C8: `ShiftLanes` and `SwitchLanes` each map the four-byte lane arrays to
themselves and each has a two-sided inverse `g` there: `g(f(a)) = a` and `f(g(a)) = a`. -/
theorem C8_diffusion_bijective :
    (∃ g : List Nat → List Nat, ∀ a, IsBytes 4 a →
        IsBytes 4 (ShiftLanes a) ∧ IsBytes 4 (g a) ∧ g (ShiftLanes a) = a
          ∧ ShiftLanes (g a) = a)
      ∧ (∃ g : List Nat → List Nat, ∀ a, IsBytes 4 a →
        IsBytes 4 (SwitchLanes a) ∧ IsBytes 4 (g a) ∧ g (SwitchLanes a) = a
          ∧ SwitchLanes (g a) = a) :=
  ⟨⟨InvShiftLanes, fun a ha => ⟨ShiftLanes_isBytes a ha, InvShiftLanes_isBytes a ha,
      (ShiftLanes_inverse a ha).1, (ShiftLanes_inverse a ha).2⟩⟩,
    ⟨InvSwitchLanes, fun a ha => ⟨SwitchLanes_isBytes a ha, InvSwitchLanes_isBytes a ha,
      (SwitchLanes_inverse a ha.1).1, (SwitchLanes_inverse a ha.1).2⟩⟩⟩

/-! ## The key schedule: one step -/

theorem rd_set (l : List Nat) (i k v : Nat) :
    rd (l.set i v) k = if i = k ∧ i < l.length then v else rd l k := by
  unfold rd
  rw [List.getD_eq_getElem?_getD, List.getD_eq_getElem?_getD, List.getElem?_set]
  by_cases hik : i = k
  · subst hik
    by_cases hi : i < l.length
    · simp [hi]
    · simp [hi, List.getElem?_eq_none (Nat.le_of_not_lt hi)]
  · simp [hik]

theorem foldl_set_length {α : Type} (l : List Nat) (f : List Nat → α → Nat) (g : List Nat → α → Nat)
    (is : List α) :
    (is.foldl (fun k i => k.set (f k i) (g k i)) l).length = l.length := by
  induction is generalizing l with
  | nil => rfl
  | cons i is ih => rw [List.foldl_cons, ih, List.length_set]

theorem RotateKeyByte_length (key : List Nat) (keylength : Nat) :
    (RotateKeyByte key keylength).length = key.length := by
  unfold RotateKeyByte
  rw [foldl_set_length _ (fun _ i => keylength / 8 - (3 - i)) (fun _ i => rd _ i),
    foldl_set_length _ (fun _ i => i) (fun k i => rd k (i + 3))]

theorem AddRoundConstant_length (bigEndian : Bool) (s : List Nat) (v : Nat) :
    (AddRoundConstant bigEndian s v).length = s.length := by
  unfold AddRoundConstant
  simp only [List.length_set]

theorem stepSubkey_length (bigEndian : Bool) (keylength : Nat) (key : List Nat) (rc : Nat) :
    (stepSubkey bigEndian keylength key rc).length = 4 := by
  unfold stepSubkey
  simp only [AddRoundConstant_length, List.length_cons, List.length_nil]

theorem four_le_cases (r : List Nat) (h : 4 ≤ r.length) :
    ∃ a b c d rest, r = a :: b :: c :: d :: rest := by
  match r, h with
  | a :: b :: c :: d :: rest, _ => exact ⟨a, b, c, d, rest, rfl⟩

theorem stepSubkey_eq (bigEndian : Bool) (keylength : Nat) (key : List Nat) (rc : Nat)
    (h : 4 ≤ key.length) :
    stepSubkey bigEndian keylength key rc
      = AddRoundConstant bigEndian ((RotateKeyByte key keylength).take 4) (u32 (rc + DELTA)) := by
  unfold stepSubkey
  obtain ⟨a, b, c, d, rest, hr⟩ := four_le_cases (RotateKeyByte key keylength)
    (by rw [RotateKeyByte_length]; exact h)
  simp only [hr]
  rfl

theorem stepKey_eq (bigEndian : Bool) (keylength : Nat) (key : List Nat) (rc : Nat)
    (h : 4 ≤ key.length) :
    stepKey bigEndian keylength key rc
      = AddRoundConstant bigEndian ((RotateKeyByte key keylength).take 4) (u32 (rc + DELTA))
        ++ (RotateKeyByte key keylength).drop 4 := by
  have hl := stepSubkey_length bigEndian keylength key rc
  unfold stepKey
  unfold stepSubkey at *
  obtain ⟨a, b, c, d, rest, hr⟩ := four_le_cases (RotateKeyByte key keylength)
    (by rw [RotateKeyByte_length]; exact h)
  simp only [hr] at *
  simp only [List.set_cons_zero, List.set_cons_succ, List.take_succ_cons, List.take_zero,
    List.drop_succ_cons, List.drop_zero, rd, List.getD_cons_zero, List.getD_cons_succ] at *
  generalize AddRoundConstant bigEndian [a, b, c, d] (u32 (rc + DELTA)) = sk at *
  conv_rhs => rw [list4_eq sk hl]
  rfl

theorem stepKey_length (bigEndian : Bool) (keylength : Nat) (key : List Nat) (rc : Nat) :
    (stepKey bigEndian keylength key rc).length = key.length := by
  unfold stepKey
  simp only [List.length_set, RotateKeyByte_length]

theorem stepState_length (bigEndian : Bool) (keylength : Nat) (K : List Nat) (j : Nat) :
    (stepState bigEndian keylength K j).1.length = K.length := by
  induction j with
  | zero => rfl
  | succ j ih => simp only [stepState, stepKey_length, ih]

theorem schedConst_eq (j : Nat) : schedConst j = j * DELTA % 2 ^ 32 := by
  induction j with
  | zero => rfl
  | succ j ih =>
    rw [schedConst, ih, DELTA]
    omega

theorem stepState_eq (bigEndian : Bool) (keylength : Nat) (K : List Nat) (h : 4 ≤ K.length)
    (j : Nat) : stepState bigEndian keylength K j
      = (schedState bigEndian keylength K j, schedConst j) := by
  induction j with
  | zero => rfl
  | succ j ih =>
    have hl := stepState_length bigEndian keylength K j
    rw [stepState, stepKey_eq _ _ _ _ (by omega), ih]
    rfl

theorem stepSub_eq (bigEndian : Bool) (keylength : Nat) (K : List Nat) (h : 4 ≤ K.length)
    (j : Nat) : stepSub bigEndian keylength K j = schedSubkey bigEndian keylength K (j + 1) := by
  have hl := stepState_length bigEndian keylength K j
  unfold stepSub
  rw [stepSubkey_eq _ _ _ _ (by omega), stepState_eq _ _ _ h]
  rfl

/-! ## The table written by `GenerateKey` -/

theorem rd_set4 (T : List Nat) (i k v0 v1 v2 v3 : Nat) (h : 4 * i + 3 < T.length) :
    rd ((((T.set (4 * i) v0).set (4 * i + 1) v1).set (4 * i + 2) v2).set (4 * i + 3) v3) k
      = if k = 4 * i then v0 else if k = 4 * i + 1 then v1 else if k = 4 * i + 2 then v2
        else if k = 4 * i + 3 then v3 else rd T k := by
  simp only [rd_set, List.length_set]
  split_ifs <;> first | rfl | omega

theorem entry_set4 (T : List Nat) (i j v0 v1 v2 v3 : Nat) (h : 4 * i + 3 < T.length) :
    entry ((((T.set (4 * i) v0).set (4 * i + 1) v1).set (4 * i + 2) v2).set (4 * i + 3) v3) j
      = if j = i then [v0, v1, v2, v3] else entry T j := by
  unfold entry
  simp only [rd_set4 T i _ v0 v1 v2 v3 h]
  by_cases hji : j = i
  · subst hji
    simp
  · rw [if_neg hji]
    have n0 : ∀ b, b < 4 → ¬ (4 * j = 4 * i + b) := by intro b _; omega
    have n1 : ∀ b, b < 4 → ¬ (4 * j + 1 = 4 * i + b) := by intro b _; omega
    have n2 : ∀ b, b < 4 → ¬ (4 * j + 2 = 4 * i + b) := by intro b _; omega
    have n3 : ∀ b, b < 4 → ¬ (4 * j + 3 = 4 * i + b) := by intro b _; omega
    have m0 : ¬ (4 * j = 4 * i) := by omega
    have m1 : ¬ (4 * j + 1 = 4 * i) := by omega
    have m2 : ¬ (4 * j + 2 = 4 * i) := by omega
    have m3 : ¬ (4 * j + 3 = 4 * i) := by omega
    simp only [m0, m1, m2, m3, n0 1, n0 2, n0 3, n1 1, n1 2, n1 3, n2 1, n2 2, n2 3, n3 1, n3 2,
      n3 3, if_false, (by decide : 1 < 4), (by decide : 2 < 4), (by decide : 3 < 4),
      not_false_eq_true]

theorem GenerateKey_body_eq (bigEndian : Bool) (keysize : Nat) (s : GenState) (i : Nat) :
    GenerateKey_body bigEndian keysize s i
      = { key := stepKey bigEndian (keysize % 65536) s.key s.round_constant
          round_constant := u32 (s.round_constant + DELTA)
          ekey := (((s.ekey.set (4 * i)
              (rd (stepSubkey bigEndian (keysize % 65536) s.key s.round_constant) 0)).set
              (4 * i + 1) (rd (stepSubkey bigEndian (keysize % 65536) s.key s.round_constant) 1)).set
              (4 * i + 2) (rd (stepSubkey bigEndian (keysize % 65536) s.key s.round_constant) 2)).set
              (4 * i + 3) (rd (stepSubkey bigEndian (keysize % 65536) s.key s.round_constant) 3) } :=
  rfl

/-- The locals of `GenerateKey` after the first `m` iterations of its loop. -/
theorem GenerateKey_loop (bigEndian : Bool) (keysize : Nat) (K ekey0 : List Nat) (m : Nat)
    (hm : 4 * m + 3 < ekey0.length) :
    let s := (List.range' 1 m).foldl (GenerateKey_body bigEndian keysize)
      { key := K, round_constant := 0, ekey := ekey0 }
    (s.key, s.round_constant) = stepState bigEndian (keysize % 65536) K m
      ∧ s.ekey.length = ekey0.length
      ∧ entry s.ekey 0 = entry ekey0 0
      ∧ ∀ j, 1 ≤ j → j ≤ m → entry s.ekey j = stepSub bigEndian (keysize % 65536) K (j - 1) := by
  induction m with
  | zero =>
    refine ⟨rfl, rfl, rfl, ?_⟩
    intro j h1 h2
    omega
  | succ m ih =>
    obtain ⟨h1, h2, h3, h4⟩ := ih (by omega)
    simp only [List.range'_1_concat, List.foldl_append, List.foldl_cons, List.foldl_nil]
    generalize (List.range' 1 m).foldl (GenerateKey_body bigEndian keysize)
      { key := K, round_constant := 0, ekey := ekey0 } = s at h1 h2 h3 h4
    rw [GenerateKey_body_eq]
    have hk : s.key = (stepState bigEndian (keysize % 65536) K m).1 := by rw [← h1]
    have hc : s.round_constant = (stepState bigEndian (keysize % 65536) K m).2 := by rw [← h1]
    refine ⟨?_, ?_, ?_, ?_⟩
    · simp only [stepState, hk, hc]
    · simp only [List.length_set, h2]
    · simp only
      rw [entry_set4 _ _ _ _ _ _ _ (by omega), if_neg (by omega), h3]
    · intro j hj1 hj2
      simp only
      rw [entry_set4 _ _ _ _ _ _ _ (by omega)]
      by_cases hj : j = 1 + m
      · rw [if_pos hj, ← list4_eq _ (stepSubkey_length _ _ _ _), hj]
        simp only [stepSub, hk, hc, Nat.add_sub_cancel_left]
      · rw [if_neg hj]
        exact h4 j hj1 (by omega)

theorem encrypt_body_K128 (bigEndian : Bool) (s : EncState) :
    SWAN64_K128_encrypt_body bigEndian s = encRound bigEndian KEY128 s := rfl

theorem encrypt_body_K256 (bigEndian : Bool) (s : EncState) :
    SWAN64_K256_encrypt_body bigEndian s = encRound bigEndian KEY256 s := rfl

theorem decrypt_body_K128 (rounds : Nat) (ekey : List Nat) (s : DecState) :
    SWAN64_K128_decrypt_body rounds ekey s = decRound rounds ekey s := rfl

theorem decrypt_body_K256 (rounds : Nat) (ekey : List Nat) (s : DecState) :
    SWAN64_K256_decrypt_body rounds ekey s = decRound rounds ekey s := rfl

/-! ## Loops -/

theorem loopFor_of_exit {σ : Type} (cond : σ → Bool) (body : σ → σ) (n : Nat) (s : σ)
    (h : cond s = false) : loopFor cond body n s = s := by
  cases n with
  | zero => rfl
  | succ n => simp [loopFor, h]

theorem loopFor_iterate {σ : Type} (cond : σ → Bool) (body : σ → σ) (n : Nat) (s : σ)
    (h : ∀ k < n, cond (body^[k] s) = true) : loopFor cond body n s = body^[n] s := by
  induction n generalizing s with
  | zero => rfl
  | succ n ih =>
    have h0 : cond s = true := h 0 (Nat.succ_pos n)
    rw [loopFor, if_pos h0, Function.iterate_succ_apply]
    apply ih
    intro k hk
    have := h (k + 1) (by omega)
    rwa [Function.iterate_succ_apply] at this

theorem loopFor_add {σ : Type} (cond : σ → Bool) (body : σ → σ) (m n : Nat) (s : σ) :
    loopFor cond body (m + n) s = loopFor cond body n (loopFor cond body m s) := by
  induction m generalizing s with
  | zero => simp [loopFor]
  | succ m ih =>
    rw [Nat.succ_add, loopFor, loopFor]
    by_cases h : cond s = true
    · rw [if_pos h, if_pos h, ih]
    · rw [if_neg h, if_neg h, loopFor_of_exit _ _ _ _ (by simpa using h)]

/-- A loop that runs `r` full iterations and then fails its test exits in the state after
those `r` iterations, whatever fuel ≥ `r` it is given. -/
theorem loopResult_exit {σ : Type} (cond : σ → Bool) (body : σ → σ) (r fuel : Nat) (s : σ)
    (hrun : ∀ k < r, cond (body^[k] s) = true) (hexit : cond (body^[r] s) = false)
    (hfuel : r ≤ fuel) : loopResult cond body fuel s = some (body^[r] s) := by
  obtain ⟨d, rfl⟩ := Nat.exists_eq_add_of_le hfuel
  unfold loopResult
  simp only [loopFor_add, loopFor_iterate cond body r s hrun, loopFor_of_exit _ _ d _ hexit, hexit]
  simp

/-- A loop whose test never fails never exits. -/
theorem loopResult_none {σ : Type} (cond : σ → Bool) (body : σ → σ) (fuel : Nat) (s : σ)
    (hrun : ∀ k, cond (body^[k] s) = true) : loopResult cond body fuel s = none := by
  unfold loopResult
  simp only [loopFor_iterate cond body fuel s (fun k _ => hrun k), hrun fuel]
  simp

/-! ## XOR of lanes -/

theorem xor4_length (x y : List Nat) : (xor4 x y).length = 4 := rfl

theorem xor4_cancel_right (x t : List Nat) (h : x.length = 4) : xor4 (xor4 x t) t = x := by
  conv_rhs => rw [list4_eq x h]
  unfold xor4
  simp only [rd, List.getD_cons_zero, List.getD_cons_succ, Nat.xor_assoc, Nat.xor_self,
    Nat.xor_zero]

theorem xor4_cancel_left (x t : List Nat) (h : x.length = 4) : xor4 t (xor4 x t) = x := by
  conv_rhs => rw [list4_eq x h]
  unfold xor4
  simp only [rd, List.getD_cons_zero, List.getD_cons_succ]
  rw [Nat.xor_comm (x.getD 0 0), Nat.xor_comm (x.getD 1 0), Nat.xor_comm (x.getD 2 0),
    Nat.xor_comm (x.getD 3 0)]
  simp only [← Nat.xor_assoc, Nat.xor_self, Nat.zero_xor]

theorem roundF_congr (X k k' : List Nat) (h : [rd k 0, rd k 1, rd k 2, rd k 3] = k') :
    roundF X k = roundF X k' := by
  subst h
  rfl

/-! ## The encryption rounds -/

theorem encRound_lengths (bigEndian : Bool) (keylength : Nat) (s0 : EncState)
    (hL : s0.L.length = 4) (hR : s0.R.length = 4) (k : Nat) :
    ((encRound bigEndian keylength)^[k] s0).L.length = 4
      ∧ ((encRound bigEndian keylength)^[k] s0).R.length = 4 := by
  induction k with
  | zero => exact ⟨hL, hR⟩
  | succ k _ =>
    rw [Function.iterate_succ_apply']
    exact ⟨rfl, rfl⟩

theorem encRound_counter (bigEndian : Bool) (keylength : Nat) (s0 : EncState) (k : Nat)
    (h0 : s0.i < 256) :
    ((encRound bigEndian keylength)^[k] s0).i = (s0.i + k) % 256 := by
  induction k with
  | zero => simp; omega
  | succ k ih =>
    rw [Function.iterate_succ_apply']
    show u8 (((encRound bigEndian keylength)^[k] s0).i + 1) = _
    rw [ih]
    unfold u8
    omega

theorem encRound_schedule (bigEndian : Bool) (keylength : Nat) (s0 : EncState)
    (hrc : s0.round_constant = 0) (k : Nat) :
    (((encRound bigEndian keylength)^[k] s0).key,
        ((encRound bigEndian keylength)^[k] s0).round_constant)
      = stepState bigEndian keylength s0.key (2 * k) := by
  induction k with
  | zero => simp [stepState, hrc]
  | succ k ih =>
    rw [Function.iterate_succ_apply']
    have hk := congrArg Prod.fst ih
    have hc := congrArg Prod.snd ih
    simp only at hk hc
    have e : 2 * (k + 1) = 2 * k + 1 + 1 := by ring
    rw [e]
    simp only [stepState, encRound, hk, hc]

theorem encRound_used (bigEndian : Bool) (keylength : Nat) (s0 : EncState)
    (hrc : s0.round_constant = 0) (k : Nat) :
    ((encRound bigEndian keylength)^[k] s0).used
      = s0.used ++ (List.range (2 * k)).map (stepSub bigEndian keylength s0.key) := by
  induction k with
  | zero => simp
  | succ k ih =>
    rw [Function.iterate_succ_apply']
    have hs := encRound_schedule bigEndian keylength s0 hrc k
    have hk := congrArg Prod.fst hs
    have hc := congrArg Prod.snd hs
    simp only at hk hc
    have e : 2 * (k + 1) = 2 * k + 1 + 1 := by ring
    rw [e, List.range_succ, List.range_succ, List.map_append, List.map_append]
    simp only [encRound, ih, hk, hc, stepSub, stepState, List.map_cons, List.map_nil,
      List.append_assoc]

/-! ## One decryption round undoes one encryption round -/

theorem decRound_encRound (bigEndian : Bool) (keylength : Nat) (s : EncState) (d : DecState)
    (rounds : Nat) (ekey : List Nat) (hL : s.L.length = 4) (hR : s.R.length = 4)
    (hdL : d.L = (encRound bigEndian keylength s).L)
    (hdR : d.R = (encRound bigEndian keylength s).R)
    (h1 : entry ekey (Int.toNat (2 * (rounds : Int) + 1 - (2 * (d.i : Int) - 1)))
      = stepSubkey bigEndian keylength (stepKey bigEndian keylength s.key s.round_constant)
          (u32 (s.round_constant + DELTA)))
    (h2 : entry ekey (Int.toNat (2 * (rounds : Int) + 1 - 2 * (d.i : Int)))
      = stepSubkey bigEndian keylength s.key s.round_constant) :
    (decRound rounds ekey d).L = s.L ∧ (decRound rounds ekey d).R = s.R := by
  have eL : (decRound rounds ekey d).L = s.L := by
    show xor4 d.L (roundF d.R (entry ekey _)) = s.L
    rw [h1, hdL, hdR]
    exact xor4_cancel_right s.L _ hL
  refine ⟨eL, ?_⟩
  show xor4 (roundF (decRound rounds ekey d).L (entry ekey _)) d.R = s.R
  rw [eL, h2, hdR]
  exact xor4_cancel_left s.R _ hR

theorem decRound_counter (rounds : Nat) (ekey : List Nat) (d0 : DecState) (m : Nat)
    (h0 : d0.i < 256) : ((decRound rounds ekey)^[m] d0).i = (d0.i + m) % 256 := by
  induction m with
  | zero => simp; omega
  | succ m ih =>
    rw [Function.iterate_succ_apply']
    show u8 (((decRound rounds ekey)^[m] d0).i + 1) = _
    rw [ih]
    unfold u8
    omega

/-- Running `m` decryption rounds on the state reached by `r` encryption rounds gives the
branches reached by `r - m` encryption rounds. -/
theorem decRound_iterate (bigEndian : Bool) (keylength : Nat) (s0 : EncState) (d0 : DecState)
    (r : Nat) (ekey : List Nat) (hr : r ≤ 255) (hL : s0.L.length = 4) (hR : s0.R.length = 4)
    (hrc : s0.round_constant = 0) (hi : d0.i = 1)
    (hdL : d0.L = ((encRound bigEndian keylength)^[r] s0).L)
    (hdR : d0.R = ((encRound bigEndian keylength)^[r] s0).R)
    (htab : ∀ j, 1 ≤ j → j ≤ 2 * r → entry ekey j = stepSub bigEndian keylength s0.key (j - 1))
    (m : Nat) (hm : m ≤ r) :
    ((decRound r ekey)^[m] d0).L = ((encRound bigEndian keylength)^[r - m] s0).L
      ∧ ((decRound r ekey)^[m] d0).R = ((encRound bigEndian keylength)^[r - m] s0).R := by
  induction m with
  | zero => exact ⟨hdL, hdR⟩
  | succ m ih =>
    obtain ⟨ihL, ihR⟩ := ih (by omega)
    have hcnt := decRound_counter r ekey d0 m (by omega)
    rw [hi] at hcnt
    have hcnt1 : ((decRound r ekey)^[m] d0).i = 1 + m := by rw [hcnt]; omega
    have hsplit : r - m = (r - (m + 1)) + 1 := by omega
    rw [hsplit, Function.iterate_succ_apply'] at ihL ihR
    have hlen := encRound_lengths bigEndian keylength s0 hL hR (r - (m + 1))
    have hs := encRound_schedule bigEndian keylength s0 hrc (r - (m + 1))
    have hk := congrArg Prod.fst hs
    have hc := congrArg Prod.snd hs
    simp only at hk hc
    rw [Function.iterate_succ_apply']
    apply decRound_encRound bigEndian keylength _ _ r ekey hlen.1 hlen.2 ihL ihR
    · rw [hcnt1]
      have e : Int.toNat (2 * (r : Int) + 1 - (2 * ((1 + m : Nat) : Int) - 1))
          = 2 * (r - (m + 1)) + 1 + 1 := by omega
      rw [e, htab _ (by omega) (by omega), hk, hc]
      simp only [Nat.add_sub_cancel, stepSub, stepState]
    · rw [hcnt1]
      have e : Int.toNat (2 * (r : Int) + 1 - 2 * ((1 + m : Nat) : Int))
          = 2 * (r - (m + 1)) + 1 := by omega
      rw [e, htab _ (by omega) (by omega), hk, hc]
      simp only [Nat.add_sub_cancel, stepSub]

/-! ## The functions as a whole -/

theorem GenerateKey_table (bigEndian : Bool) (uninit : Nat → Nat) (K : List Nat)
    (r keysize : Nat) :
    (GenerateKey bigEndian uninit K r keysize).length = (2 * r + 1) * 4
      ∧ ∀ j, 1 ≤ j → j ≤ 2 * r → entry (GenerateKey bigEndian uninit K r keysize) j
          = stepSub bigEndian (keysize % 65536) (K.take (keysize / 8)) (j - 1) := by
  have hlen : ((List.range ((2 * r + 1) * 4)).map uninit).length = (2 * r + 1) * 4 := by simp
  obtain ⟨_, h2, _, h4⟩ := GenerateKey_loop bigEndian keysize (K.take (keysize / 8))
    ((List.range ((2 * r + 1) * 4)).map uninit) (2 * r) (by omega)
  unfold GenerateKey
  simp only
  rw [List.take_of_length_le (by omega)]
  exact ⟨by omega, h4⟩

theorem encrypt_exit (bigEndian : Bool) (keylength : Nat) (s0 : EncState) (r fuel : Nat)
    (hi : s0.i = 1) (hr : r ≤ 254) (hfuel : r ≤ fuel) :
    loopResult (fun s => decide (s.i ≤ r)) (encRound bigEndian keylength) fuel s0
      = some ((encRound bigEndian keylength)^[r] s0) := by
  apply loopResult_exit _ _ r fuel s0 _ _ hfuel
  · intro k hk
    simp only [encRound_counter bigEndian keylength s0 k (by omega), hi, decide_eq_true_eq]
    omega
  · simp only [encRound_counter bigEndian keylength s0 r (by omega), hi, decide_eq_false_iff_not]
    omega

theorem decrypt_exit (ekey : List Nat) (d0 : DecState) (r fuel : Nat)
    (hi : d0.i = 1) (hr : r ≤ 254) (hfuel : r ≤ fuel) :
    loopResult (fun s => decide (s.i ≤ r)) (decRound r ekey) fuel d0
      = some ((decRound r ekey)^[r] d0) := by
  apply loopResult_exit _ _ r fuel d0 _ _ hfuel
  · intro k hk
    simp only [decRound_counter r ekey d0 k (by omega), hi, decide_eq_true_eq]
    omega
  · simp only [decRound_counter r ekey d0 r (by omega), hi, decide_eq_false_iff_not]
    omega

theorem output_eq (P : List Nat) (h : P.length = 8) :
    output [rd P 0, rd P 1, rd P 2, rd P 3] [rd P 4, rd P 5, rd P 6, rd P 7] = P := by
  match P, h with
  | [_, _, _, _, _, _, _, _], _ => rfl

/-- Decryption with a table whose entries `1..2r` are the inline subkeys of `K` returns the
plaintext of the state that encryption started from. -/
theorem roundtrip (bigEndian : Bool) (keylength : Nat) (P K T : List Nat) (r fuel : Nat)
    (hP : P.length = 8) (hr : r ≤ 254) (hfuel : r ≤ fuel)
    (hT : T.length = (2 * r + 1) * 4)
    (htab : ∀ j, 1 ≤ j → j ≤ 2 * r → entry T j = stepSub bigEndian keylength K (j - 1)) :
    ∃ Ct, (loopResult (fun s => decide (s.i ≤ r)) (encRound bigEndian keylength) fuel
          { i := 1, L := [rd P 0, rd P 1, rd P 2, rd P 3],
            R := [rd P 4, rd P 5, rd P 6, rd P 7], key := K, round_constant := 0,
            used := [] }).map (fun s => output s.L s.R) = some Ct
      ∧ (loopResult (fun s => decide (s.i ≤ r)) (decRound r (T.take ((2 * r + 1) * 4))) fuel
          { i := 1, L := [rd Ct 0, rd Ct 1, rd Ct 2, rd Ct 3],
            R := [rd Ct 4, rd Ct 5, rd Ct 6, rd Ct 7], reads := [] }).map
          (fun s => output s.L s.R) = some P := by
  obtain ⟨hl, hrr⟩ := encRound_lengths bigEndian keylength
    { i := 1, L := [rd P 0, rd P 1, rd P 2, rd P 3], R := [rd P 4, rd P 5, rd P 6, rd P 7],
      key := K, round_constant := 0, used := [] } rfl rfl r
  rw [encrypt_exit bigEndian keylength _ r fuel rfl hr hfuel]
  generalize hE : (encRound bigEndian keylength)^[r]
    { i := 1, L := [rd P 0, rd P 1, rd P 2, rd P 3], R := [rd P 4, rd P 5, rd P 6, rd P 7],
      key := K, round_constant := 0, used := [] } = E at hl hrr
  refine ⟨output E.L E.R, rfl, ?_⟩
  have hdL : [rd (output E.L E.R) 0, rd (output E.L E.R) 1, rd (output E.L E.R) 2,
      rd (output E.L E.R) 3] = E.L := (list4_eq _ hl).symm
  have hdR : [rd (output E.L E.R) 4, rd (output E.L E.R) 5, rd (output E.L E.R) 6,
      rd (output E.L E.R) 7] = E.R := (list4_eq _ hrr).symm
  rw [hdL, hdR, decrypt_exit _ _ r fuel rfl hr hfuel, List.take_of_length_le (by omega)]
  obtain ⟨hL, hR⟩ := decRound_iterate bigEndian keylength
    { i := 1, L := [rd P 0, rd P 1, rd P 2, rd P 3], R := [rd P 4, rd P 5, rd P 6, rd P 7],
      key := K, round_constant := 0, used := [] }
    { i := 1, L := E.L, R := E.R, reads := [] }
    r T (by omega) rfl rfl rfl rfl (by rw [hE]) (by rw [hE]) htab r (Nat.le_refl r)
  simp only [Nat.sub_self, Function.iterate_zero, id_eq] at hL hR
  rw [Option.map_some', hL, hR, output_eq P hP]

/-! ## Round trips -/

/-- Claim C1: for every 8-byte plaintext `P` and 16-byte key `K`, on either byte order and
whatever the uninitialised slot 0 of the table holds, `GenerateKey(K, 32, 128)` is a table
of 65 four-byte entries, `SWAN64_K128_encrypt_rounds(P, K, 32)` returns a ciphertext as soon
as it is given fuel for 32 iterations, and `SWAN64_K128_decrypt_rounds` on that ciphertext
and that table returns `P`. -/
theorem C1_roundtrip_K128 (bigEndian : Bool) (uninit : Nat → Nat) (P K : List Nat)
    (fuel : Nat) (hP : IsBytes 8 P) (hK : IsBytes 16 K) (hfuel : 32 ≤ fuel) :
    (GenerateKey bigEndian uninit K 32 128).length = 65 * 4
      ∧ ∃ Ct, SWAN64_K128_encrypt_rounds bigEndian fuel P K 32 = some Ct
        ∧ SWAN64_K128_decrypt_rounds fuel Ct (GenerateKey bigEndian uninit K 32 128) 32
            = some P := by
  obtain ⟨hlen, htab⟩ := GenerateKey_table bigEndian uninit K 32 128
  refine ⟨hlen, ?_⟩
  unfold SWAN64_K128_encrypt_rounds SWAN64_K128_decrypt_rounds
  rw [funext (encrypt_body_K128 bigEndian), funext (decrypt_body_K128 32 _)]
  exact roundtrip bigEndian KEY128 P (K.take (KEY128 / 8)) _ 32 fuel hP.1 (by decide) hfuel
    hlen htab

theorem C1_roundtrip_K128_witness :
    (GenerateKey false (fun _ => 0) (List.range 16) 32 128).length = 65 * 4
      ∧ ∃ Ct, SWAN64_K128_encrypt_rounds false 32 [1, 2, 3, 4, 5, 6, 7, 8] (List.range 16) 32
          = some Ct
        ∧ SWAN64_K128_decrypt_rounds 32 Ct
            (GenerateKey false (fun _ => 0) (List.range 16) 32 128) 32
            = some [1, 2, 3, 4, 5, 6, 7, 8] :=
  C1_roundtrip_K128 false (fun _ => 0) [1, 2, 3, 4, 5, 6, 7, 8] (List.range 16) 32
    (by decide) (by decide) (by decide)

/-- Claim C2: for every 8-byte plaintext `P` and 32-byte key `K`, on either byte order and
whatever the uninitialised slot 0 of the table holds, `GenerateKey(K, 64, 256)` is a table
of 129 four-byte entries, `SWAN64_K256_encrypt_rounds(P, K, 64)` returns a ciphertext as
soon as it is given fuel for 64 iterations, and `SWAN64_K256_decrypt_rounds` on that
ciphertext and that table returns `P`. -/
theorem C2_roundtrip_K256 (bigEndian : Bool) (uninit : Nat → Nat) (P K : List Nat)
    (fuel : Nat) (hP : IsBytes 8 P) (hK : IsBytes 32 K) (hfuel : 64 ≤ fuel) :
    (GenerateKey bigEndian uninit K 64 256).length = 129 * 4
      ∧ ∃ Ct, SWAN64_K256_encrypt_rounds bigEndian fuel P K 64 = some Ct
        ∧ SWAN64_K256_decrypt_rounds fuel Ct (GenerateKey bigEndian uninit K 64 256) 64
            = some P := by
  obtain ⟨hlen, htab⟩ := GenerateKey_table bigEndian uninit K 64 256
  refine ⟨hlen, ?_⟩
  unfold SWAN64_K256_encrypt_rounds SWAN64_K256_decrypt_rounds
  rw [funext (encrypt_body_K256 bigEndian), funext (decrypt_body_K256 64 _)]
  exact roundtrip bigEndian KEY256 P (K.take (KEY256 / 8)) _ 64 fuel hP.1 (by decide) hfuel
    hlen htab

theorem C2_roundtrip_K256_witness :
    (GenerateKey true (fun k => k) (List.range 32) 64 256).length = 129 * 4
      ∧ ∃ Ct, SWAN64_K256_encrypt_rounds true 64 [8, 7, 6, 5, 4, 3, 2, 1] (List.range 32) 64
          = some Ct
        ∧ SWAN64_K256_decrypt_rounds 64 Ct
            (GenerateKey true (fun k => k) (List.range 32) 64 256) 64
            = some [8, 7, 6, 5, 4, 3, 2, 1] :=
  C2_roundtrip_K256 true (fun k => k) [8, 7, 6, 5, 4, 3, 2, 1] (List.range 32) 64
    (by decide) (by decide) (by decide)

/-! ## The inline schedule against the table -/

theorem encRound_loop_used (bigEndian : Bool) (keylength r n : Nat) (t : EncState) :
    ∃ ext, (loopFor (fun s => decide (s.i ≤ r)) (encRound bigEndian keylength) n t).used
      = t.used ++ ext := by
  induction n generalizing t with
  | zero => exact ⟨[], by simp [loopFor]⟩
  | succ n ih =>
    rw [loopFor]
    by_cases h : decide (t.i ≤ r) = true
    · rw [if_pos h]
      obtain ⟨ext, he⟩ := ih (encRound bigEndian keylength t)
      refine ⟨(encRound bigEndian keylength t).used.drop t.used.length ++ ext, ?_⟩
      have hu : (encRound bigEndian keylength t).used
          = t.used ++ (encRound bigEndian keylength t).used.drop t.used.length := by
        simp [encRound]
      rw [he, ← List.append_assoc, ← hu]
    · rw [if_neg h]
      exact ⟨[], by simp⟩

/-- The log of subkeys after the loop of an encrypt function has been given at least `r`
iterations: its first `2 * r` entries are the inline subkeys, in order. -/
theorem encrypt_used (bigEndian : Bool) (keylength : Nat) (s0 : EncState) (r n j : Nat)
    (hi : s0.i = 1) (hrc : s0.round_constant = 0) (hused : s0.used = []) (hr : r ≤ 255)
    (hn : r ≤ n) (hj1 : 1 ≤ j) (hj2 : j ≤ 2 * r) :
    (loopFor (fun s => decide (s.i ≤ r)) (encRound bigEndian keylength) n s0).used[j - 1]?
      = some (stepSub bigEndian keylength s0.key (j - 1)) := by
  obtain ⟨d, rfl⟩ := Nat.exists_eq_add_of_le hn
  have hrun : ∀ k < r, (fun s : EncState => decide (s.i ≤ r))
      ((encRound bigEndian keylength)^[k] s0) = true := by
    intro k hk
    simp only [encRound_counter bigEndian keylength s0 k (by omega), hi, decide_eq_true_eq]
    omega
  rw [loopFor_add, loopFor_iterate _ _ r s0 hrun]
  obtain ⟨ext, he⟩ := encRound_loop_used bigEndian keylength r d
    ((encRound bigEndian keylength)^[r] s0)
  rw [he, encRound_used bigEndian keylength s0 hrc r, hused, List.nil_append,
    List.getElem?_append_left (by simp; omega), List.getElem?_map,
    List.getElem?_range (by omega)]
  rfl

/-- Claim C3: for a 16-byte key with `keysize` 128 and for a 32-byte key with `keysize` 256,
every round count `r` of the 8-bit parameter and every `j` in `1..2r`: once the loop of the
encrypt function has been given at least `r` iterations, the `j`-th subkey it has XORed
into a branch copy is entry `j` of the table of `GenerateKey(K, r, keysize)`.  The table
does not mention the plaintext, so neither do these subkeys. -/
theorem C3_schedule_consistency (bigEndian : Bool) (uninit : Nat → Nat)
    (P K16 K32 : List Nat) (r n j : Nat) (h16 : IsBytes 16 K16) (h32 : IsBytes 32 K32)
    (hr : r < 256) (hn : r ≤ n) (hj1 : 1 ≤ j) (hj2 : j ≤ 2 * r) :
    (SWAN64_K128_encrypt_loop bigEndian n P K16 r).used[j - 1]?
        = some (entry (GenerateKey bigEndian uninit K16 r 128) j)
      ∧ (SWAN64_K256_encrypt_loop bigEndian n P K32 r).used[j - 1]?
        = some (entry (GenerateKey bigEndian uninit K32 r 256) j) := by
  constructor
  · rw [(GenerateKey_table bigEndian uninit K16 r 128).2 j hj1 hj2]
    unfold SWAN64_K128_encrypt_loop
    rw [funext (encrypt_body_K128 bigEndian)]
    exact encrypt_used bigEndian KEY128 (SWAN64_K128_encrypt_init P K16) r n j rfl rfl rfl
      (by omega) hn hj1 hj2
  · rw [(GenerateKey_table bigEndian uninit K32 r 256).2 j hj1 hj2]
    unfold SWAN64_K256_encrypt_loop
    rw [funext (encrypt_body_K256 bigEndian)]
    exact encrypt_used bigEndian KEY256 (SWAN64_K256_encrypt_init P K32) r n j rfl rfl rfl
      (by omega) hn hj1 hj2

theorem C3_schedule_consistency_witness :
    (SWAN64_K128_encrypt_loop false 2 [1, 2, 3, 4, 5, 6, 7, 8] (List.range 16) 2).used[3 - 1]?
        = some (entry (GenerateKey false (fun _ => 0) (List.range 16) 2 128) 3)
      ∧ (SWAN64_K256_encrypt_loop false 2 [1, 2, 3, 4, 5, 6, 7, 8] (List.range 32) 2).used[3 - 1]?
        = some (entry (GenerateKey false (fun _ => 0) (List.range 32) 2 256) 3) :=
  C3_schedule_consistency false (fun _ => 0) [1, 2, 3, 4, 5, 6, 7, 8] (List.range 16)
    (List.range 32) 2 2 3 (by decide) (by decide) (by decide) (by decide) (by decide)
    (by decide)

/-- Claim C9: for a key `K` of `n = keysize / 8` bytes (`n = 16` or `n = 32`) and every round
count `r`, `GenerateKey` writes `(2r+1)*4` bytes, and for every `j` in `1..2r` bytes
`4j..4j+3` of them are the subkey `sk_j` of the documented cumulative schedule, whose
round constant is `c_j = j * 0x9e3779b9 mod 2^32`. -/
theorem C9_GenerateKey_schedule (bigEndian : Bool) (uninit : Nat → Nat) (K : List Nat)
    (n keysize r : Nat) (hn : n = 16 ∧ keysize = 128 ∨ n = 32 ∧ keysize = 256)
    (hK : IsBytes n K) (hr : r < 256) :
    (GenerateKey bigEndian uninit K r keysize).length = (2 * r + 1) * 4
      ∧ ∀ j, 1 ≤ j → j ≤ 2 * r →
        entry (GenerateKey bigEndian uninit K r keysize) j = schedSubkey bigEndian keysize K j
          ∧ (schedSubkey bigEndian keysize K j).length = 4
          ∧ schedConst j = j * 0x9e3779b9 % 2 ^ 32 := by
  obtain ⟨hlen, htab⟩ := GenerateKey_table bigEndian uninit K r keysize
  refine ⟨hlen, ?_⟩
  intro j hj1 hj2
  have hks : keysize % 65536 = keysize ∧ keysize / 8 = n := by omega
  have hsub : entry (GenerateKey bigEndian uninit K r keysize) j
      = schedSubkey bigEndian keysize K j := by
    rw [htab j hj1 hj2, hks.1, hks.2, List.take_of_length_le (by rw [hK.1]),
      stepSub_eq bigEndian keysize K (by rw [hK.1]; omega) (j - 1), Nat.sub_add_cancel hj1]
  refine ⟨hsub, ?_, schedConst_eq j⟩
  rw [← hsub]
  rfl

theorem C9_GenerateKey_schedule_witness :
    (GenerateKey false (fun _ => 7) (List.range 16) 2 128).length = (2 * 2 + 1) * 4
      ∧ entry (GenerateKey false (fun _ => 7) (List.range 16) 2 128) 4
          = schedSubkey false 128 (List.range 16) 4
      ∧ (schedSubkey false 128 (List.range 16) 4).length = 4
      ∧ schedConst 4 = 4 * 0x9e3779b9 % 2 ^ 32 :=
  ⟨(C9_GenerateKey_schedule false (fun _ => 7) (List.range 16) 16 128 2 (by decide)
      (by decide) (by decide)).1,
    (C9_GenerateKey_schedule false (fun _ => 7) (List.range 16) 16 128 2 (by decide)
      (by decide) (by decide)).2 4 (by decide) (by decide)⟩

/-! ## The table indices read by decryption -/

theorem decRound_congr (r : Nat) (T T' : List Nat) (d : DecState) (m : Nat) (hi : d.i = 1 + m)
    (hm : m < r) (hagree : ∀ j, 1 ≤ j → j ≤ 2 * r → entry T j = entry T' j) :
    decRound r T d = decRound r T' d := by
  have e1 : Int.toNat (2 * (r : Int) + 1 - (2 * (d.i : Int) - 1)) = 2 * (r - m) := by
    rw [hi]; omega
  have e2 : Int.toNat (2 * (r : Int) + 1 - 2 * (d.i : Int)) = 2 * (r - m) - 1 := by
    rw [hi]; omega
  unfold decRound
  simp only [e1, e2, hagree (2 * (r - m)) (by omega) (by omega),
    hagree (2 * (r - m) - 1) (by omega) (by omega)]

theorem decRound_iterate_congr (r : Nat) (T T' : List Nat) (d0 : DecState) (hr : r ≤ 255)
    (hi : d0.i = 1) (hagree : ∀ j, 1 ≤ j → j ≤ 2 * r → entry T j = entry T' j) (m : Nat)
    (hm : m ≤ r) : (decRound r T)^[m] d0 = (decRound r T')^[m] d0 := by
  induction m with
  | zero => rfl
  | succ m ih =>
    rw [Function.iterate_succ_apply', Function.iterate_succ_apply', ← ih (by omega)]
    apply decRound_congr r T T' _ m _ (by omega) hagree
    rw [decRound_counter r T d0 m (by omega), hi]
    omega

theorem decRound_iterate_reads (r : Nat) (T : List Nat) (d0 : DecState) (hr : r ≤ 255)
    (hi : d0.i = 1) (hreads : d0.reads = []) (m : Nat) (hm : m ≤ r) :
    ∀ j ∈ ((decRound r T)^[m] d0).reads, 1 ≤ j ∧ j ≤ 2 * r := by
  induction m with
  | zero =>
    intro j hj
    simp [hreads] at hj
  | succ m ih =>
    have hc : ((decRound r T)^[m] d0).i = 1 + m := by
      rw [decRound_counter r T d0 m (by omega), hi]
      omega
    rw [Function.iterate_succ_apply']
    intro j hj
    have hj' : j ∈ ((decRound r T)^[m] d0).reads
        ++ [Int.toNat (2 * (r : Int) + 1 - (2 * (((decRound r T)^[m] d0).i : Int) - 1))]
        ++ [Int.toNat (2 * (r : Int) + 1 - 2 * (((decRound r T)^[m] d0).i : Int))] := hj
    rw [hc] at hj'
    simp only [List.mem_append, List.mem_singleton] at hj'
    rcases hj' with (h | h) | h
    · exact ih (by omega) j h
    · omega
    · omega

/-- Within the first `r` iterations the loop of a decrypt function has not exited; with
`r ≤ 254` it exits after exactly `r`. -/
theorem decrypt_loop_eq (r : Nat) (T : List Nat) (d0 : DecState) (hr : r ≤ 254)
    (hi : d0.i = 1) (fuel : Nat) :
    loopFor (fun s => decide (s.i ≤ r)) (decRound r T) fuel d0
      = (decRound r T)^[min fuel r] d0 := by
  have hrun : ∀ k < r, (fun s : DecState => decide (s.i ≤ r)) ((decRound r T)^[k] d0) = true := by
    intro k hk
    simp only [decRound_counter r T d0 k (by omega), hi, decide_eq_true_eq]
    omega
  by_cases hf : fuel ≤ r
  · rw [Nat.min_eq_left hf]
    exact loopFor_iterate _ _ fuel d0 (fun k hk => hrun k (by omega))
  · obtain ⟨d, rfl⟩ := Nat.exists_eq_add_of_le (Nat.le_of_not_le hf)
    rw [Nat.min_eq_right (by omega), loopFor_add, loopFor_iterate _ _ r d0 hrun]
    apply loopFor_of_exit
    simp only [decRound_counter r T d0 r (by omega), hi, decide_eq_false_iff_not]
    omega

/-- With `rounds ≤ 254`, decryption does not depend on slot 0 of the table and reads only
entries `1..2r`. -/
theorem decrypt_slot0_unused (Ct T T' : List Nat) (r fuel : Nat) (hr : r ≤ 254)
    (hT : T.length = (2 * r + 1) * 4) (hT' : T'.length = (2 * r + 1) * 4)
    (hagree : ∀ j, 1 ≤ j → j ≤ 2 * r → entry T j = entry T' j) :
    SWAN64_K128_decrypt_rounds fuel Ct T r = SWAN64_K128_decrypt_rounds fuel Ct T' r
      ∧ SWAN64_K256_decrypt_rounds fuel Ct T r = SWAN64_K256_decrypt_rounds fuel Ct T' r
      ∧ (∀ j ∈ (SWAN64_K128_decrypt_loop fuel Ct T r).reads, 1 ≤ j ∧ j ≤ 2 * r)
      ∧ (∀ j ∈ (SWAN64_K256_decrypt_loop fuel Ct T r).reads, 1 ≤ j ∧ j ≤ 2 * r) := by
  have hloop : loopFor (fun s => decide (s.i ≤ r)) (decRound r T) fuel
      (SWAN64_K128_decrypt_init Ct)
      = loopFor (fun s => decide (s.i ≤ r)) (decRound r T') fuel
        (SWAN64_K128_decrypt_init Ct) := by
    rw [decrypt_loop_eq r T _ hr rfl, decrypt_loop_eq r T' _ hr rfl]
    exact decRound_iterate_congr r T T' _ (by omega) rfl hagree _ (Nat.min_le_right _ _)
  have hres : loopResult (fun s => decide (s.i ≤ r)) (decRound r T) fuel
      (SWAN64_K128_decrypt_init Ct)
      = loopResult (fun s => decide (s.i ≤ r)) (decRound r T') fuel
        (SWAN64_K128_decrypt_init Ct) := by
    unfold loopResult
    rw [hloop]
  have hreads : ∀ j ∈ (loopFor (fun s => decide (s.i ≤ r)) (decRound r T) fuel
      (SWAN64_K128_decrypt_init Ct)).reads, 1 ≤ j ∧ j ≤ 2 * r := by
    rw [decrypt_loop_eq r T _ hr rfl]
    exact decRound_iterate_reads r T _ (by omega) rfl rfl _ (Nat.min_le_right _ _)
  unfold SWAN64_K128_decrypt_rounds SWAN64_K256_decrypt_rounds SWAN64_K128_decrypt_loop
    SWAN64_K256_decrypt_loop
  rw [funext (decrypt_body_K128 r _), funext (decrypt_body_K128 r _),
    funext (decrypt_body_K256 r _), funext (decrypt_body_K256 r _),
    List.take_of_length_le (by omega), List.take_of_length_le (by omega)]
  exact ⟨by rw [hres], by rw [show SWAN64_K256_decrypt_init Ct = SWAN64_K128_decrypt_init Ct
    from rfl, hres], hreads, hreads⟩

theorem decrypt_slot0_unused_witness :
    SWAN64_K128_decrypt_rounds 5 [1, 2, 3, 4, 5, 6, 7, 8] (List.range 12) 1
        = SWAN64_K128_decrypt_rounds 5 [1, 2, 3, 4, 5, 6, 7, 8]
          ([9, 9, 9, 9] ++ (List.range 12).drop 4) 1
      ∧ SWAN64_K256_decrypt_rounds 5 [1, 2, 3, 4, 5, 6, 7, 8] (List.range 12) 1
        = SWAN64_K256_decrypt_rounds 5 [1, 2, 3, 4, 5, 6, 7, 8]
          ([9, 9, 9, 9] ++ (List.range 12).drop 4) 1
      ∧ (∀ j ∈ (SWAN64_K128_decrypt_loop 5 [1, 2, 3, 4, 5, 6, 7, 8] (List.range 12) 1).reads,
          1 ≤ j ∧ j ≤ 2 * 1)
      ∧ (∀ j ∈ (SWAN64_K256_decrypt_loop 5 [1, 2, 3, 4, 5, 6, 7, 8] (List.range 12) 1).reads,
          1 ≤ j ∧ j ≤ 2 * 1) :=
  decrypt_slot0_unused [1, 2, 3, 4, 5, 6, 7, 8] (List.range 12)
    ([9, 9, 9, 9] ++ (List.range 12).drop 4) 1 5 (by decide) (by decide) (by decide)
    (by decide)

/-! ## The round loop at `rounds = 255` -/

/-- With `rounds = 255` the test `i <= rounds` of the 8-bit counter never fails. -/
theorem decrypt_255_runs (T : List Nat) (d0 : DecState) (hi : d0.i = 1) (k : Nat) :
    (fun s : DecState => decide (s.i ≤ 255)) ((decRound 255 T)^[k] d0) = true := by
  simp only [decRound_counter 255 T d0 k (by omega), hi, decide_eq_true_eq]
  omega

/-- Claim C10 at `rounds = 255`: for every ciphertext and table, neither decrypt function
returns, whatever the fuel, and the iteration after the 8-bit counter has wrapped from 255
to 0 reads table entry `512`, which is outside `1..510` and outside the table. -/
theorem C10_decrypt_rounds_255 (Ct T : List Nat) (fuel : Nat) :
    SWAN64_K128_decrypt_rounds fuel Ct T 255 = none
      ∧ SWAN64_K256_decrypt_rounds fuel Ct T 255 = none
      ∧ 512 ∈ (SWAN64_K128_decrypt_loop 256 Ct T 255).reads
      ∧ 512 ∈ (SWAN64_K256_decrypt_loop 256 Ct T 255).reads := by
  have hnone : loopResult (fun s => decide (s.i ≤ 255)) (decRound 255 (T.take ((2 * 255 + 1) * 4)))
      fuel (SWAN64_K128_decrypt_init Ct) = none :=
    loopResult_none _ _ fuel _ (decrypt_255_runs _ _ rfl)
  have hloop : 512 ∈ (loopFor (fun s => decide (s.i ≤ 255))
      (decRound 255 (T.take ((2 * 255 + 1) * 4))) 256 (SWAN64_K128_decrypt_init Ct)).reads := by
    rw [loopFor_iterate _ _ 256 _ (fun k _ => decrypt_255_runs _ _ rfl k),
      Function.iterate_succ_apply']
    have hi0 : (SWAN64_K128_decrypt_init Ct).i = 1 := rfl
    have hc0 : ((decRound 255 (T.take ((2 * 255 + 1) * 4)))^[255]
        (SWAN64_K128_decrypt_init Ct)).i = 0 := by
      rw [decRound_counter 255 _ (SWAN64_K128_decrypt_init Ct) 255 (by omega), hi0]
    show 512 ∈ _ ++ [Int.toNat (2 * ((255 : Nat) : Int) + 1 - (2 * ((_ : Nat) : Int) - 1))] ++ [_]
    rw [hc0]
    apply List.mem_append_left
    apply List.mem_append_right
    rw [List.mem_singleton]
    omega
  unfold SWAN64_K128_decrypt_rounds SWAN64_K256_decrypt_rounds SWAN64_K128_decrypt_loop
    SWAN64_K256_decrypt_loop
  rw [funext (decrypt_body_K128 255 _), funext (decrypt_body_K256 255 _)]
  exact ⟨by rw [hnone]; rfl, by rw [show SWAN64_K256_decrypt_init Ct
    = SWAN64_K128_decrypt_init Ct from rfl, hnone]; rfl, hloop, hloop⟩

/-! ## Byte rotation of the key -/

theorem rd_append_left (k tail : List Nat) (i : Nat) (h : i < k.length) :
    rd (k ++ tail) i = rd k i := by
  unfold rd
  rw [List.getD_eq_getElem?_getD, List.getD_eq_getElem?_getD, List.getElem?_append_left h]

theorem temp3_eq (f : Nat → Nat) :
    (List.range 3).foldl (fun t i => t.set i (f i)) [0, 0, 0] = [f 0, f 1, f 2] := rfl

/-- The second loop of `RotateKeyByte` after `m` iterations. -/
theorem rotate_shift (K : List Nat) (m : Nat) : ∀ j,
    rd ((List.range m).foldl (fun k i => k.set i (rd k (i + 3))) K) j
      = if j < m ∧ j < K.length then rd K (j + 3) else rd K j := by
  induction m with
  | zero => simp
  | succ m ih =>
    intro j
    have hlen : ((List.range m).foldl (fun k i => k.set i (rd k (i + 3))) K).length = K.length :=
      foldl_set_length K (fun _ i => i) (fun k i => rd k (i + 3)) (List.range m)
    have hno : ¬ (m + 3 < m ∧ m + 3 < K.length) := by omega
    rw [List.range_succ, List.foldl_append, List.foldl_cons, List.foldl_nil, rd_set, hlen,
      ih (m + 3), ih j, if_neg hno]
    by_cases h1 : m = j ∧ m < K.length
    · rw [if_pos h1, if_pos (by omega), h1.1]
    · rw [if_neg h1]
      by_cases h2 : j < m ∧ j < K.length
      · rw [if_pos h2, if_pos (by omega)]
      · rw [if_neg h2, if_neg (by omega)]

/-- The second loop of `InvRotateKeyByte` after the iterations `i = m, m - 1, ..., 1`. -/
theorem invRotate_shift (below : Nat → Nat) (m : Nat) : ∀ (K : List Nat) (j : Nat),
    rd (((List.range' 1 m).reverse).foldl (fun k i => k.set i (rdAt below k ((i : Int) - 3))) K) j
      = if 1 ≤ j ∧ j ≤ m ∧ j < K.length then rdAt below K ((j : Int) - 3) else rd K j := by
  induction m with
  | zero =>
    intro K j
    show rd K j = _
    rw [if_neg (by omega)]
  | succ m ih =>
    intro K j
    rw [List.range'_1_concat, List.reverse_append, List.reverse_singleton, List.singleton_append,
      List.foldl_cons, ih, List.length_set, rd_set]
    have hrd : ∀ i : Nat, i ≤ m → rdAt below (K.set (1 + m) (rdAt below K (((1 + m : Nat) : Int) - 3)))
        ((i : Int) - 3) = rdAt below K ((i : Int) - 3) := by
      intro i hi
      unfold rdAt
      by_cases hneg : (i : Int) - 3 < 0
      · rw [if_pos hneg, if_pos hneg]
      · rw [if_neg hneg, if_neg hneg, rd_set, if_neg (by omega)]
    by_cases h1 : 1 ≤ j ∧ j ≤ m ∧ j < K.length
    · rw [if_pos h1, if_pos (by omega), hrd j h1.2.1]
    · rw [if_neg h1]
      by_cases h2 : 1 + m = j ∧ 1 + m < K.length
      · rw [if_pos h2, if_pos (by omega), ← h2.1]
      · rw [if_neg h2, if_neg (by omega)]

theorem foldl3_set (g h : Nat → Nat) (K : List Nat) :
    (List.range 3).foldl (fun k i => k.set (g i) (h i)) K
      = ((K.set (g 0) (h 0)).set (g 1) (h 1)).set (g 2) (h 2) := rfl

/-- Byte `j` of the buffer after `RotateKeyByte`, for a buffer that holds at least the
`n = keylength / 8` bytes of the key. -/
theorem RotateKeyByte_rd (K : List Nat) (keylength n : Nat) (hn : keylength / 8 = n)
    (h3 : 3 ≤ n) (hlen : n ≤ K.length) (j : Nat) :
    rd (RotateKeyByte K keylength) j
      = if j < n - 3 then rd K (j + 3) else if j < n then rd K (j + 3 - n) else rd K j := by
  have hl2 : ((List.range (n - 1)).foldl (fun k i => k.set i (rd k (i + 3))) K).length
      = K.length := foldl_set_length K (fun _ i => i) (fun k i => rd k (i + 3)) _
  unfold RotateKeyByte
  simp only [hn]
  rw [temp3_eq (fun i => rd K i),
    foldl3_set (fun i => n - (3 - i)) (fun i => rd [rd K 0, rd K 1, rd K 2] i)]
  simp only [rd_set, List.length_set, hl2, rotate_shift]
  have e0 : rd [rd K 0, rd K 1, rd K 2] 0 = rd K 0 := rfl
  have e1 : rd [rd K 0, rd K 1, rd K 2] 1 = rd K 1 := rfl
  have e2 : rd [rd K 0, rd K 1, rd K 2] 2 = rd K 2 := rfl
  rw [e0, e1, e2]
  by_cases c1 : j < n - 3
  · rw [if_pos c1, if_neg (by omega), if_neg (by omega), if_neg (by omega), if_pos (by omega)]
  · rw [if_neg c1]
    by_cases c2 : j < n
    · rw [if_pos c2]
      by_cases d2 : j = n - 1
      · rw [if_pos (by omega)]
        have : j + 3 - n = 2 := by omega
        rw [this]
      · rw [if_neg (by omega)]
        by_cases d1 : j = n - 2
        · rw [if_pos (by omega)]
          have : j + 3 - n = 1 := by omega
          rw [this]
        · rw [if_neg (by omega), if_pos (by omega)]
          have : j + 3 - n = 0 := by omega
          rw [this]
    · rw [if_neg c2, if_neg (by omega), if_neg (by omega), if_neg (by omega), if_neg (by omega)]

theorem rdAt_sub (below : Nat → Nat) (K : List Nat) (j : Nat) (h : 3 ≤ j) :
    rdAt below K ((j : Int) - 3) = rd K (j - 3) := by
  unfold rdAt
  rw [if_neg (by omega)]
  congr 1
  omega

/-- Byte `j` of the buffer after `InvRotateKeyByte`, for a buffer that holds at least the
`n = keylength / 8` bytes of the key; the bytes before the buffer do not matter. -/
theorem InvRotateKeyByte_rd (below : Nat → Nat) (K : List Nat) (keylength n : Nat)
    (hn : keylength / 8 = n) (h3 : 3 ≤ n) (hlen : n ≤ K.length) (j : Nat) :
    rd (InvRotateKeyByte below K keylength) j
      = if j < 3 then rd K (n - 3 + j) else if j < n then rd K (j - 3) else rd K j := by
  have hl2 : (((List.range' 1 (n - 1)).reverse).foldl
      (fun k i => k.set i (rdAt below k ((i : Int) - 3))) K).length = K.length :=
    foldl_set_length K (fun _ i => i) (fun k i => rdAt below k ((i : Int) - 3)) _
  unfold InvRotateKeyByte
  simp only [hn]
  rw [temp3_eq (fun i => rd K (n - (3 - i))),
    foldl3_set (fun i => i) (fun i => rd [rd K (n - (3 - 0)), rd K (n - (3 - 1)),
      rd K (n - (3 - 2))] i)]
  simp only [rd_set, List.length_set, hl2, invRotate_shift]
  have e0 : rd [rd K (n - (3 - 0)), rd K (n - (3 - 1)), rd K (n - (3 - 2))] 0
      = rd K (n - 3 + 0) := rfl
  have e1 : rd [rd K (n - (3 - 0)), rd K (n - (3 - 1)), rd K (n - (3 - 2))] 1
      = rd K (n - 2) := rfl
  have e2 : rd [rd K (n - (3 - 0)), rd K (n - (3 - 1)), rd K (n - (3 - 2))] 2
      = rd K (n - 1) := rfl
  rw [e0, e1, e2]
  have hsub : 3 ≤ j → rdAt below K ((j : Int) - 3) = rd K (j - 3) := rdAt_sub below K j
  split_ifs <;>
    first
      | rfl
      | (exfalso; omega)
      | exact hsub (by omega)
      | (congr 1; omega)

theorem InvRotateKeyByte_length (below : Nat → Nat) (key : List Nat) (keylength : Nat) :
    (InvRotateKeyByte below key keylength).length = key.length := by
  unfold InvRotateKeyByte
  rw [foldl_set_length _ (fun _ i => i) (fun _ i => rd _ i),
    foldl_set_length _ (fun _ i => i) (fun k i => rdAt below k ((i : Int) - 3))]

theorem list_eq_of_rd (a b : List Nat) (hlen : a.length = b.length)
    (h : ∀ i < a.length, rd a i = rd b i) : a = b := by
  apply List.ext_getElem hlen
  intro i h1 h2
  have := h i h1
  unfold rd at this
  rw [List.getD_eq_getElem?_getD, List.getD_eq_getElem?_getD, List.getElem?_eq_getElem h1,
    List.getElem?_eq_getElem h2] at this
  simpa using this

/-- Claim C15: for `n = 16` (keylength 128) and `n = 32` (keylength 256), every `n`-byte key
`k` and every `i < n`, byte `i` of the key after `RotateKeyByte` is `k[(i + 3) mod n]`; this
holds whatever bytes `tail` lie in memory after the key, so the `n` resulting bytes depend
only on the `n` bytes of `k`. -/
theorem C15_RotateKeyByte_rotation (k tail : List Nat) (n keylength i : Nat)
    (hn : n = 16 ∧ keylength = 128 ∨ n = 32 ∧ keylength = 256) (hk : IsBytes n k)
    (hi : i < n) :
    rd (RotateKeyByte (k ++ tail) keylength) i = rd k ((i + 3) % n)
      ∧ rd (RotateKeyByte k keylength) i = rd k ((i + 3) % n)
      ∧ (RotateKeyByte k keylength).length = n := by
  have hdiv : keylength / 8 = n := by omega
  have h3 : 3 ≤ n := by omega
  have hmod : (i + 3) % n = if i < n - 3 then i + 3 else i + 3 - n := by
    split_ifs with h
    · exact Nat.mod_eq_of_lt (by omega)
    · rw [Nat.mod_eq_sub_mod (by omega), Nat.mod_eq_of_lt (by omega)]
  refine ⟨?_, ?_, by rw [RotateKeyByte_length, hk.1]⟩
  · rw [RotateKeyByte_rd (k ++ tail) keylength n hdiv h3
      (by rw [List.length_append, hk.1]; omega) i, hmod]
    split_ifs with h
    · exact rd_append_left k tail _ (by rw [hk.1]; omega)
    · exact rd_append_left k tail _ (by rw [hk.1]; omega)
  · rw [RotateKeyByte_rd k keylength n hdiv h3 (by rw [hk.1]) i, hmod]
    split_ifs with h <;> rfl

theorem C15_RotateKeyByte_rotation_witness :
    rd (RotateKeyByte (List.range 16 ++ [77, 88]) 128) 14 = rd (List.range 16) ((14 + 3) % 16)
      ∧ rd (RotateKeyByte (List.range 16) 128) 14 = rd (List.range 16) ((14 + 3) % 16)
      ∧ (RotateKeyByte (List.range 16) 128).length = 16 :=
  C15_RotateKeyByte_rotation (List.range 16) [77, 88] 16 128 14 (by decide) (by decide)
    (by decide)

/-- Claim C21: for `n = 16` (keylength 128) and `n = 32` (keylength 256) and every `n`-byte
key `k`, `InvRotateKeyByte` after `RotateKeyByte` yields `k`, and `RotateKeyByte` after
`InvRotateKeyByte` yields `k`, whatever bytes lie in memory before the key. -/
theorem C21_InvRotateKeyByte_inverse (below : Nat → Nat) (k : List Nat) (n keylength : Nat)
    (hn : n = 16 ∧ keylength = 128 ∨ n = 32 ∧ keylength = 256) (hk : IsBytes n k) :
    InvRotateKeyByte below (RotateKeyByte k keylength) keylength = k
      ∧ RotateKeyByte (InvRotateKeyByte below k keylength) keylength = k := by
  have hdiv : keylength / 8 = n := by omega
  have h3 : 3 ≤ n := by omega
  have hlen := hk.1
  constructor
  · apply list_eq_of_rd
    · rw [InvRotateKeyByte_length, RotateKeyByte_length]
    · intro i hi
      rw [InvRotateKeyByte_length, RotateKeyByte_length, hlen] at hi
      rw [InvRotateKeyByte_rd below _ keylength n hdiv h3
        (by rw [RotateKeyByte_length, hlen]) i]
      simp only [RotateKeyByte_rd k keylength n hdiv h3 (by rw [hlen])]
      split_ifs <;> first | rfl | (exfalso; omega) | (congr 1; omega)
  · apply list_eq_of_rd
    · rw [RotateKeyByte_length, InvRotateKeyByte_length]
    · intro i hi
      rw [RotateKeyByte_length, InvRotateKeyByte_length, hlen] at hi
      rw [RotateKeyByte_rd _ keylength n hdiv h3
        (by rw [InvRotateKeyByte_length, hlen]) i]
      simp only [InvRotateKeyByte_rd below k keylength n hdiv h3 (by rw [hlen])]
      split_ifs <;> first | rfl | (exfalso; omega) | (congr 1; omega)

theorem C21_InvRotateKeyByte_inverse_witness :
    InvRotateKeyByte (fun d => 100 + d) (RotateKeyByte (List.range 32) 256) 256 = List.range 32
      ∧ RotateKeyByte (InvRotateKeyByte (fun d => 100 + d) (List.range 32) 256) 256
        = List.range 32 :=
  C21_InvRotateKeyByte_inverse (fun d => 100 + d) (List.range 32) 32 256 (by decide)
    (by decide)

/-! ## The accesses of `RotateKeyByte` -/

theorem rotate_trace_loop2 (m : Nat) (t : RotateTrace) :
    (List.range m).foldl
      (fun (t : RotateTrace) i =>
        { key := t.key.set i (rd t.key (i + 3)), reads := t.reads ++ [i + 3],
          writes := t.writes ++ [i] }) t
      = { key := (List.range m).foldl (fun k i => k.set i (rd k (i + 3))) t.key
          reads := t.reads ++ (List.range m).map (fun i => i + 3)
          writes := t.writes ++ List.range m } := by
  induction m with
  | zero => simp
  | succ m ih =>
    rw [List.range_succ, List.foldl_append, List.foldl_append, ih]
    simp

theorem rotate_trace_loop3 (g h : Nat → Nat) (t : RotateTrace) :
    (List.range 3).foldl
      (fun (t : RotateTrace) i =>
        { t with key := t.key.set (g i) (h i), writes := t.writes ++ [g i] }) t
      = { key := ((t.key.set (g 0) (h 0)).set (g 1) (h 1)).set (g 2) (h 2)
          reads := t.reads
          writes := t.writes ++ [g 0, g 1, g 2] } := by
  have h3 : List.range 3 = [0, 1, 2] := rfl
  rw [h3]
  simp [List.foldl]

/-- The logged version of `RotateKeyByte` computes the same buffer, reads
`0, 1, 2, 3, ..., n + 1` and writes `0, ..., n - 2, n - 3, n - 2, n - 1`, where
`n = keylength / 8`. -/
theorem RotateKeyByte_traced_eq (key : List Nat) (keylength : Nat) :
    RotateKeyByte_traced key keylength
      = { key := RotateKeyByte key keylength
          reads := [0, 1, 2] ++ (List.range (keylength / 8 - 1)).map (fun i => i + 3)
          writes := List.range (keylength / 8 - 1)
            ++ [keylength / 8 - 3, keylength / 8 - 2, keylength / 8 - 1] } := by
  unfold RotateKeyByte_traced RotateKeyByte
  have h1 : (List.range 3).foldl
      (fun (s : List Nat × RotateTrace) i =>
        (s.1.set i (rd s.2.key i), { s.2 with reads := s.2.reads ++ [i] }))
      ([0, 0, 0], { key := key, reads := [], writes := [] })
      = ([rd key 0, rd key 1, rd key 2], { key := key, reads := [0, 1, 2], writes := [] }) := rfl
  simp only [h1, rotate_trace_loop2, temp3_eq (fun i => rd key i)]
  rw [rotate_trace_loop3 (fun i => keylength / 8 - (3 - i))
      (fun i => rd [rd key 0, rd key 1, rd key 2] i),
    foldl3_set (fun i => keylength / 8 - (3 - i)) (fun i => rd [rd key 0, rd key 1, rd key 2] i)]
  simp

/-- Claim C19 on any key buffer: with keylength 128 the call reads the indices
`0, 1, ..., 17`, so `key[16]` and `key[17]` are read from a 16-byte buffer, and with
keylength 256 it reads `0, 1, ..., 33`; every index it writes is inside the key. -/
theorem C19_RotateKeyByte_reads_past_key (key : List Nat) :
    (RotateKeyByte_traced key 128).reads = List.range 18
      ∧ (RotateKeyByte_traced key 256).reads = List.range 34
      ∧ (∀ w ∈ (RotateKeyByte_traced key 128).writes, w < 16)
      ∧ (∀ w ∈ (RotateKeyByte_traced key 256).writes, w < 32) := by
  rw [RotateKeyByte_traced_eq key 128, RotateKeyByte_traced_eq key 256]
  refine ⟨?_, ?_, ?_, ?_⟩ <;> dsimp only <;> decide

/-! ## The byte order of `AddRoundConstant` -/

theorem AddRoundConstant_four (bigEndian : Bool) (a b c d v : Nat) :
    AddRoundConstant bigEndian [a, b, c, d] v
      = store32 bigEndian (u32 (load32 bigEndian [a, b, c, d] + v)) := by
  unfold AddRoundConstant
  cases bigEndian <;>
    simp only [store32, rd, List.getD_cons_zero, List.getD_cons_succ, List.set_cons_zero,
      List.set_cons_succ, if_true, if_false, Bool.false_eq_true]

/-- Claim C16 as amended: `AddRoundConstant` is addition modulo `2^32` in the byte order of
the machine.  On a little-endian machine the four bytes are the little-endian encoding of
`(s[0] + 2^8 s[1] + 2^16 s[2] + 2^24 s[3] + c) mod 2^32`; on a big-endian machine they are
the big-endian encoding of `(2^24 s[0] + 2^16 s[1] + 2^8 s[2] + s[3] + c) mod 2^32`. -/
theorem C16_AddRoundConstant_native_order (s : List Nat) (c : Nat) (hs : IsBytes 4 s)
    (hc : c < 2 ^ 32) :
    AddRoundConstant false s c
        = encodeLE ((rd s 0 + 2 ^ 8 * rd s 1 + 2 ^ 16 * rd s 2 + 2 ^ 24 * rd s 3 + c) % 2 ^ 32)
      ∧ AddRoundConstant true s c
        = encodeBE ((2 ^ 24 * rd s 0 + 2 ^ 16 * rd s 1 + 2 ^ 8 * rd s 2 + rd s 3 + c) % 2 ^ 32) := by
  have h4 := list4_eq s hs.1
  generalize rd s 0 = s0 at h4 ⊢
  generalize rd s 1 = s1 at h4 ⊢
  generalize rd s 2 = s2 at h4 ⊢
  generalize rd s 3 = s3 at h4 ⊢
  subst h4
  rw [AddRoundConstant_four, AddRoundConstant_four]
  have eLE : load32 false [s0, s1, s2, s3] + c
      = s0 + 2 ^ 8 * s1 + 2 ^ 16 * s2 + 2 ^ 24 * s3 + c := by
    simp only [load32, rd, List.getD_cons_zero, List.getD_cons_succ, if_false,
      Bool.false_eq_true]
    ring
  have eBE : load32 true [s0, s1, s2, s3] + c
      = 2 ^ 24 * s0 + 2 ^ 16 * s1 + 2 ^ 8 * s2 + s3 + c := by
    simp only [load32, rd, List.getD_cons_zero, List.getD_cons_succ, if_true]
    ring
  rw [eLE, eBE]
  exact ⟨rfl, rfl⟩

theorem C16_AddRoundConstant_native_order_witness :
    AddRoundConstant false [0xff, 0xff, 0xff, 0xff] 2
        = encodeLE ((rd [0xff, 0xff, 0xff, 0xff] 0 + 2 ^ 8 * rd [0xff, 0xff, 0xff, 0xff] 1
            + 2 ^ 16 * rd [0xff, 0xff, 0xff, 0xff] 2 + 2 ^ 24 * rd [0xff, 0xff, 0xff, 0xff] 3
            + 2) % 2 ^ 32)
      ∧ AddRoundConstant true [0xff, 0xff, 0xff, 0xff] 2
        = encodeBE ((2 ^ 24 * rd [0xff, 0xff, 0xff, 0xff] 0
            + 2 ^ 16 * rd [0xff, 0xff, 0xff, 0xff] 1 + 2 ^ 8 * rd [0xff, 0xff, 0xff, 0xff] 2
            + rd [0xff, 0xff, 0xff, 0xff] 3 + 2) % 2 ^ 32) :=
  C16_AddRoundConstant_native_order [0xff, 0xff, 0xff, 0xff] 2 (by decide) (by decide)

/-- Claim C16 as stated fails on a big-endian machine: there `AddRoundConstant` on
`[1, 0, 0, 0]` and `1` gives `[1, 0, 0, 1]`, where the little-endian encoding of
`(1 + 1) mod 2^32` is `[2, 0, 0, 0]`. -/
theorem C16_big_endian_counterexample :
    AddRoundConstant true [1, 0, 0, 0] 1 = [1, 0, 0, 1]
      ∧ encodeLE ((1 + 2 ^ 8 * 0 + 2 ^ 16 * 0 + 2 ^ 24 * 0 + 1) % 2 ^ 32) = [2, 0, 0, 0]
      ∧ AddRoundConstant true [1, 0, 0, 0] 1
        ≠ encodeLE ((rd [1, 0, 0, 0] 0 + 2 ^ 8 * rd [1, 0, 0, 0] 1 + 2 ^ 16 * rd [1, 0, 0, 0] 2
            + 2 ^ 24 * rd [1, 0, 0, 0] 3 + 1) % 2 ^ 32) := by
  decide

/-! ## The two decrypt functions -/

/-- Claim C17: for every ciphertext `C`, table `T` and round count `r`, and every amount of
fuel, `SWAN64_K128_decrypt_rounds` and `SWAN64_K256_decrypt_rounds` give the same result,
and their loops are in the same state after the same number of iterations. -/
theorem C17_decrypt_paths_agree (fuel : Nat) (Ct T : List Nat) (r : Nat) :
    SWAN64_K128_decrypt_rounds fuel Ct T r = SWAN64_K256_decrypt_rounds fuel Ct T r
      ∧ SWAN64_K128_decrypt_loop fuel Ct T r = SWAN64_K256_decrypt_loop fuel Ct T r := by
  unfold SWAN64_K128_decrypt_rounds SWAN64_K256_decrypt_rounds SWAN64_K128_decrypt_loop
    SWAN64_K256_decrypt_loop
  rw [funext (decrypt_body_K128 r _), funext (decrypt_body_K256 r _)]
  exact ⟨rfl, rfl⟩

/-! ## How often the round loop runs -/

theorem decRound_reads_length (r : Nat) (T : List Nat) (d0 : DecState) (m : Nat) :
    ((decRound r T)^[m] d0).reads.length = d0.reads.length + 2 * m := by
  induction m with
  | zero => rfl
  | succ m ih =>
    rw [Function.iterate_succ_apply']
    show (((decRound r T)^[m] d0).reads ++ [_] ++ [_]).length = _
    rw [List.length_append, List.length_append, ih]
    simp only [List.length_singleton]
    omega

theorem encRound_used_length (bigEndian : Bool) (keylength : Nat) (s0 : EncState) (m : Nat) :
    ((encRound bigEndian keylength)^[m] s0).used.length = s0.used.length + 2 * m := by
  induction m with
  | zero => rfl
  | succ m ih =>
    rw [Function.iterate_succ_apply']
    show (((encRound bigEndian keylength)^[m] s0).used ++ [_] ++ [_]).length = _
    rw [List.length_append, List.length_append, ih]
    simp only [List.length_singleton]
    omega

/-- With `rounds = 255` the test `i <= rounds` of the 8-bit counter never fails. -/
theorem encrypt_255_runs (bigEndian : Bool) (keylength : Nat) (s0 : EncState) (hi : s0.i = 1)
    (k : Nat) :
    (fun s : EncState => decide (s.i ≤ 255)) ((encRound bigEndian keylength)^[k] s0) = true := by
  simp only [encRound_counter bigEndian keylength s0 k (by omega), hi, decide_eq_true_eq]
  omega

/-- With `rounds ≤ 254` and fuel for `rounds` iterations, each of the four round loops runs
its body exactly `rounds` times (two log entries per iteration) and the function returns. -/
theorem round_loop_terminates (bigEndian : Bool) (fuel : Nat) (B K T : List Nat) (r : Nat)
    (hr : r ≤ 254) (hfuel : r ≤ fuel) :
    ((SWAN64_K128_encrypt_loop bigEndian fuel B K r).used.length = 2 * r
        ∧ (SWAN64_K128_encrypt_rounds bigEndian fuel B K r).isSome = true)
      ∧ ((SWAN64_K256_encrypt_loop bigEndian fuel B K r).used.length = 2 * r
        ∧ (SWAN64_K256_encrypt_rounds bigEndian fuel B K r).isSome = true)
      ∧ ((SWAN64_K128_decrypt_loop fuel B T r).reads.length = 2 * r
        ∧ (SWAN64_K128_decrypt_rounds fuel B T r).isSome = true)
      ∧ ((SWAN64_K256_decrypt_loop fuel B T r).reads.length = 2 * r
        ∧ (SWAN64_K256_decrypt_rounds fuel B T r).isSome = true) := by
  have henc : ∀ (keylength : Nat) (s0 : EncState), s0.i = 1 → s0.used = [] →
      (loopFor (fun s => decide (s.i ≤ r)) (encRound bigEndian keylength) fuel s0).used.length
          = 2 * r
        ∧ ((loopResult (fun s => decide (s.i ≤ r)) (encRound bigEndian keylength) fuel s0).map
            (fun s => output s.L s.R)).isSome = true := by
    intro keylength s0 hi hu
    have hex := encrypt_exit bigEndian keylength s0 r fuel hi hr hfuel
    have hlf : loopFor (fun s => decide (s.i ≤ r)) (encRound bigEndian keylength) fuel s0
        = (encRound bigEndian keylength)^[r] s0 := by
      unfold loopResult at hex
      simp only at hex
      split_ifs at hex with hc
      exact Option.some.inj hex
    rw [hlf, hex, encRound_used_length, hu]
    exact ⟨by simp, rfl⟩
  have hdec : ∀ (ekey : List Nat) (d0 : DecState), d0.i = 1 → d0.reads = [] →
      (loopFor (fun s => decide (s.i ≤ r)) (decRound r ekey) fuel d0).reads.length = 2 * r
        ∧ ((loopResult (fun s => decide (s.i ≤ r)) (decRound r ekey) fuel d0).map
            (fun s => output s.L s.R)).isSome = true := by
    intro ekey d0 hi hu
    have hex := decrypt_exit ekey d0 r fuel hi hr hfuel
    rw [decrypt_loop_eq r ekey d0 hr hi, Nat.min_eq_right hfuel, hex, decRound_reads_length, hu]
    exact ⟨by simp, rfl⟩
  unfold SWAN64_K128_encrypt_loop SWAN64_K256_encrypt_loop SWAN64_K128_decrypt_loop
    SWAN64_K256_decrypt_loop SWAN64_K128_encrypt_rounds SWAN64_K256_encrypt_rounds
    SWAN64_K128_decrypt_rounds SWAN64_K256_decrypt_rounds
  rw [funext (encrypt_body_K128 bigEndian), funext (encrypt_body_K256 bigEndian),
    funext (decrypt_body_K128 r _), funext (decrypt_body_K256 r _)]
  exact ⟨henc KEY128 _ rfl rfl, henc KEY256 _ rfl rfl, hdec _ _ rfl rfl, hdec _ _ rfl rfl⟩

theorem round_loop_terminates_witness :
    ((SWAN64_K128_encrypt_loop false 5 [1, 2, 3, 4, 5, 6, 7, 8] (List.range 32) 2).used.length
          = 2 * 2
        ∧ (SWAN64_K128_encrypt_rounds false 5 [1, 2, 3, 4, 5, 6, 7, 8] (List.range 32) 2).isSome
          = true)
      ∧ ((SWAN64_K256_encrypt_loop false 5 [1, 2, 3, 4, 5, 6, 7, 8] (List.range 32) 2).used.length
          = 2 * 2
        ∧ (SWAN64_K256_encrypt_rounds false 5 [1, 2, 3, 4, 5, 6, 7, 8] (List.range 32) 2).isSome
          = true)
      ∧ ((SWAN64_K128_decrypt_loop 5 [1, 2, 3, 4, 5, 6, 7, 8] (List.range 20) 2).reads.length
          = 2 * 2
        ∧ (SWAN64_K128_decrypt_rounds 5 [1, 2, 3, 4, 5, 6, 7, 8] (List.range 20) 2).isSome
          = true)
      ∧ ((SWAN64_K256_decrypt_loop 5 [1, 2, 3, 4, 5, 6, 7, 8] (List.range 20) 2).reads.length
          = 2 * 2
        ∧ (SWAN64_K256_decrypt_rounds 5 [1, 2, 3, 4, 5, 6, 7, 8] (List.range 20) 2).isSome
          = true) :=
  round_loop_terminates false 5 [1, 2, 3, 4, 5, 6, 7, 8] (List.range 32) (List.range 20) 2
    (by decide) (by decide)

/-- Claim C20 at `rounds = 255`: in each of the four functions the counter wraps from 255
to 0 with the test `i <= rounds` still true, so the body has run 256 times after 256
iterations (512 log entries) and, whatever the fuel, the function does not return. -/
theorem C20_round_loop_at_255 (bigEndian : Bool) (fuel : Nat) (B K T : List Nat) :
    (SWAN64_K128_encrypt_rounds bigEndian fuel B K 255 = none
        ∧ (SWAN64_K128_encrypt_loop bigEndian 256 B K 255).used.length = 512)
      ∧ (SWAN64_K256_encrypt_rounds bigEndian fuel B K 255 = none
        ∧ (SWAN64_K256_encrypt_loop bigEndian 256 B K 255).used.length = 512)
      ∧ (SWAN64_K128_decrypt_rounds fuel B T 255 = none
        ∧ (SWAN64_K128_decrypt_loop 256 B T 255).reads.length = 512)
      ∧ (SWAN64_K256_decrypt_rounds fuel B T 255 = none
        ∧ (SWAN64_K256_decrypt_loop 256 B T 255).reads.length = 512) := by
  have henc : ∀ (keylength : Nat) (s0 : EncState), s0.i = 1 → s0.used = [] →
      (loopResult (fun s => decide (s.i ≤ 255)) (encRound bigEndian keylength) fuel s0).map
          (fun s => output s.L s.R) = none
        ∧ (loopFor (fun s => decide (s.i ≤ 255)) (encRound bigEndian keylength) 256
            s0).used.length = 512 := by
    intro keylength s0 hi hu
    rw [loopResult_none _ _ fuel s0 (encrypt_255_runs bigEndian keylength s0 hi),
      loopFor_iterate _ _ 256 s0 (fun k _ => encrypt_255_runs bigEndian keylength s0 hi k),
      encRound_used_length, hu]
    exact ⟨rfl, rfl⟩
  have hdec : ∀ (ekey : List Nat) (d0 : DecState), d0.i = 1 → d0.reads = [] →
      (loopResult (fun s => decide (s.i ≤ 255)) (decRound 255 ekey) fuel d0).map
          (fun s => output s.L s.R) = none
        ∧ (loopFor (fun s => decide (s.i ≤ 255)) (decRound 255 ekey) 256 d0).reads.length
          = 512 := by
    intro ekey d0 hi hu
    rw [loopResult_none _ _ fuel d0 (decrypt_255_runs ekey d0 hi),
      loopFor_iterate _ _ 256 d0 (fun k _ => decrypt_255_runs ekey d0 hi k),
      decRound_reads_length, hu]
    exact ⟨rfl, rfl⟩
  unfold SWAN64_K128_encrypt_loop SWAN64_K256_encrypt_loop SWAN64_K128_decrypt_loop
    SWAN64_K256_decrypt_loop SWAN64_K128_encrypt_rounds SWAN64_K256_encrypt_rounds
    SWAN64_K128_decrypt_rounds SWAN64_K256_decrypt_rounds
  rw [funext (encrypt_body_K128 bigEndian), funext (encrypt_body_K256 bigEndian),
    funext (decrypt_body_K128 255 _), funext (decrypt_body_K256 255 _)]
  exact ⟨henc KEY128 _ rfl rfl, henc KEY256 _ rfl rfl, hdec _ _ rfl rfl, hdec _ _ rfl rfl⟩

/-! ## No validation at the boundary -/

theorem rd_take (l : List Nat) (n i : Nat) (h : i < n) : rd (l.take n) i = rd l i := by
  unfold rd
  rw [List.getD_eq_getElem?_getD, List.getD_eq_getElem?_getD, List.getElem?_take, if_pos h]

/-- Only the first eight bytes of the block and the first 16 (32) bytes of the key reach an
encrypt function. -/
theorem encrypt_init_take (B K : List Nat) :
    SWAN64_K128_encrypt_init (B.take 8) (K.take 16) = SWAN64_K128_encrypt_init B K
      ∧ SWAN64_K256_encrypt_init (B.take 8) (K.take 32) = SWAN64_K256_encrypt_init B K := by
  have h128 : KEY128 / 8 = 16 := rfl
  have h256 : KEY256 / 8 = 32 := rfl
  unfold SWAN64_K128_encrypt_init SWAN64_K256_encrypt_init
  simp only [h128, h256, List.take_take, Nat.min_self, rd_take B 8 0 (by decide),
    rd_take B 8 1 (by decide), rd_take B 8 2 (by decide), rd_take B 8 3 (by decide),
    rd_take B 8 4 (by decide), rd_take B 8 5 (by decide), rd_take B 8 6 (by decide),
    rd_take B 8 7 (by decide), and_self]

/-- Only the first eight bytes of the block reach a decrypt function. -/
theorem decrypt_init_take (B : List Nat) :
    SWAN64_K128_decrypt_init (B.take 8) = SWAN64_K128_decrypt_init B
      ∧ SWAN64_K256_decrypt_init (B.take 8) = SWAN64_K256_decrypt_init B := by
  unfold SWAN64_K128_decrypt_init SWAN64_K256_decrypt_init
  simp only [rd_take B 8 0 (by decide),
    rd_take B 8 1 (by decide), rd_take B 8 2 (by decide), rd_take B 8 3 (by decide),
    rd_take B 8 4 (by decide), rd_take B 8 5 (by decide), rd_take B 8 6 (by decide),
    rd_take B 8 7 (by decide), and_self]

/-- Claim C12 as amended: no function validates its arguments.  For every `rounds ≤ 254`
and buffers at least as long as the code reads (a block of at least 8 bytes, a key of at
least 16 resp. 32 bytes, a schedule of at least `(2 * rounds + 1) * 4` bytes), every call
returns eight bytes (`(2 * rounds + 1) * 4` bytes for `GenerateKey`), and the output is the
one for the buffers cut to the length the code reads: a longer block, key or schedule is
accepted without any error and its extra bytes are ignored. -/
theorem C12_no_boundary_validation (bigEndian : Bool) (uninit : Nat → Nat) (fuel : Nat)
    (B K16 K32 T : List Nat) (r : Nat) (hB : 8 ≤ B.length) (h16 : 16 ≤ K16.length)
    (h32 : 32 ≤ K32.length) (hT : (2 * r + 1) * 4 ≤ T.length) (hr : r ≤ 254)
    (hfuel : r ≤ fuel) :
    ((∃ out, SWAN64_K128_encrypt_rounds bigEndian fuel B K16 r = some out ∧ out.length = 8)
        ∧ SWAN64_K128_encrypt_rounds bigEndian fuel B K16 r
          = SWAN64_K128_encrypt_rounds bigEndian fuel (B.take 8) (K16.take 16) r)
      ∧ ((∃ out, SWAN64_K256_encrypt_rounds bigEndian fuel B K32 r = some out ∧ out.length = 8)
        ∧ SWAN64_K256_encrypt_rounds bigEndian fuel B K32 r
          = SWAN64_K256_encrypt_rounds bigEndian fuel (B.take 8) (K32.take 32) r)
      ∧ ((∃ out, SWAN64_K128_decrypt_rounds fuel B T r = some out ∧ out.length = 8)
        ∧ SWAN64_K128_decrypt_rounds fuel B T r
          = SWAN64_K128_decrypt_rounds fuel (B.take 8) (T.take ((2 * r + 1) * 4)) r)
      ∧ ((∃ out, SWAN64_K256_decrypt_rounds fuel B T r = some out ∧ out.length = 8)
        ∧ SWAN64_K256_decrypt_rounds fuel B T r
          = SWAN64_K256_decrypt_rounds fuel (B.take 8) (T.take ((2 * r + 1) * 4)) r)
      ∧ ((GenerateKey bigEndian uninit K16 r 128).length = (2 * r + 1) * 4
        ∧ GenerateKey bigEndian uninit K16 r 128
          = GenerateKey bigEndian uninit (K16.take 16) r 128)
      ∧ ((GenerateKey bigEndian uninit K32 r 256).length = (2 * r + 1) * 4
        ∧ GenerateKey bigEndian uninit K32 r 256
          = GenerateKey bigEndian uninit (K32.take 32) r 256) := by
  have hgen : ∀ (K : List Nat) (n keysize : Nat), keysize / 8 = n →
      GenerateKey bigEndian uninit K r keysize
        = GenerateKey bigEndian uninit (K.take n) r keysize := by
    intro K n keysize hn
    unfold GenerateKey
    simp only [hn, List.take_take, Nat.min_self]
  unfold SWAN64_K128_encrypt_rounds SWAN64_K256_encrypt_rounds
    SWAN64_K128_decrypt_rounds SWAN64_K256_decrypt_rounds
  rw [(encrypt_init_take B K16).1, (encrypt_init_take B K32).2, (decrypt_init_take B).1,
    (decrypt_init_take B).2, List.take_take, Nat.min_self]
  refine ⟨⟨?_, rfl⟩, ⟨?_, rfl⟩, ⟨?_, rfl⟩, ⟨?_, rfl⟩,
    ⟨(GenerateKey_table bigEndian uninit K16 r 128).1, hgen K16 16 128 rfl⟩,
    ⟨(GenerateKey_table bigEndian uninit K32 r 256).1, hgen K32 32 256 rfl⟩⟩
  · rw [funext (encrypt_body_K128 bigEndian),
      encrypt_exit bigEndian KEY128 _ r fuel rfl hr hfuel]
    exact ⟨_, rfl, rfl⟩
  · rw [funext (encrypt_body_K256 bigEndian),
      encrypt_exit bigEndian KEY256 _ r fuel rfl hr hfuel]
    exact ⟨_, rfl, rfl⟩
  · rw [funext (decrypt_body_K128 r _),
      decrypt_exit _ (SWAN64_K128_decrypt_init B) r fuel rfl hr hfuel]
    exact ⟨_, rfl, rfl⟩
  · rw [funext (decrypt_body_K256 r _),
      decrypt_exit _ (SWAN64_K256_decrypt_init B) r fuel rfl hr hfuel]
    exact ⟨_, rfl, rfl⟩

theorem C12_no_boundary_validation_witness :
    ((∃ out, SWAN64_K128_encrypt_rounds false 1 [1, 2, 3, 4, 5, 6, 7, 8, 9] (List.range 32) 1
          = some out ∧ out.length = 8)
        ∧ SWAN64_K128_encrypt_rounds false 1 [1, 2, 3, 4, 5, 6, 7, 8, 9] (List.range 32) 1
          = SWAN64_K128_encrypt_rounds false 1 ([1, 2, 3, 4, 5, 6, 7, 8, 9].take 8)
              ((List.range 32).take 16) 1)
      ∧ ((∃ out, SWAN64_K256_encrypt_rounds false 1 [1, 2, 3, 4, 5, 6, 7, 8, 9] (List.range 40) 1
          = some out ∧ out.length = 8)
        ∧ SWAN64_K256_encrypt_rounds false 1 [1, 2, 3, 4, 5, 6, 7, 8, 9] (List.range 40) 1
          = SWAN64_K256_encrypt_rounds false 1 ([1, 2, 3, 4, 5, 6, 7, 8, 9].take 8)
              ((List.range 40).take 32) 1)
      ∧ ((∃ out, SWAN64_K128_decrypt_rounds 1 [1, 2, 3, 4, 5, 6, 7, 8, 9] (List.range 16) 1
          = some out ∧ out.length = 8)
        ∧ SWAN64_K128_decrypt_rounds 1 [1, 2, 3, 4, 5, 6, 7, 8, 9] (List.range 16) 1
          = SWAN64_K128_decrypt_rounds 1 ([1, 2, 3, 4, 5, 6, 7, 8, 9].take 8)
              ((List.range 16).take ((2 * 1 + 1) * 4)) 1)
      ∧ ((∃ out, SWAN64_K256_decrypt_rounds 1 [1, 2, 3, 4, 5, 6, 7, 8, 9] (List.range 16) 1
          = some out ∧ out.length = 8)
        ∧ SWAN64_K256_decrypt_rounds 1 [1, 2, 3, 4, 5, 6, 7, 8, 9] (List.range 16) 1
          = SWAN64_K256_decrypt_rounds 1 ([1, 2, 3, 4, 5, 6, 7, 8, 9].take 8)
              ((List.range 16).take ((2 * 1 + 1) * 4)) 1)
      ∧ ((GenerateKey false (fun _ => 0) (List.range 32) 1 128).length = (2 * 1 + 1) * 4
        ∧ GenerateKey false (fun _ => 0) (List.range 32) 1 128
          = GenerateKey false (fun _ => 0) ((List.range 32).take 16) 1 128)
      ∧ ((GenerateKey false (fun _ => 0) (List.range 40) 1 256).length = (2 * 1 + 1) * 4
        ∧ GenerateKey false (fun _ => 0) (List.range 40) 1 256
          = GenerateKey false (fun _ => 0) ((List.range 40).take 32) 1 256) :=
  C12_no_boundary_validation false (fun _ => 0) 1 [1, 2, 3, 4, 5, 6, 7, 8, 9] (List.range 32)
    (List.range 40) (List.range 16) 1 (by decide) (by decide) (by decide) (by decide)
    (by decide) (by decide)

set_option maxRecDepth 100000 in
/-- Claim C12 as stated fails on buffers longer than the declared variant: the 128-bit
encrypt function handed a 32-byte key, the same function handed a 9-byte block, the decrypt
function handed a schedule of 4 entries for 1 round (3 expected) and `GenerateKey` with
keysize 128 handed a 32-byte key each produce the output for the first 16, 8, 12 and 16
bytes, and none reports an error. -/
theorem C12_no_error_counterexample :
    SWAN64_K128_encrypt_rounds false 1 [1, 2, 3, 4, 5, 6, 7, 8] (List.range 32) 1
        = some [236, 81, 182, 215, 221, 184, 90, 176]
      ∧ SWAN64_K128_encrypt_rounds false 1 [1, 2, 3, 4, 5, 6, 7, 8, 9] (List.range 16) 1
        = some [236, 81, 182, 215, 221, 184, 90, 176]
      ∧ SWAN64_K128_decrypt_rounds 1 [1, 2, 3, 4, 5, 6, 7, 8] (List.range 16) 1
        = some [64, 251, 175, 165, 223, 77, 218, 73]
      ∧ GenerateKey false (fun _ => 0) (List.range 32) 1 128
        = [0, 0, 0, 0, 188, 125, 60, 164, 22, 251, 118, 69] := by
  decide

/-! ## The caller's buffers -/

theorem roundF_eq_feistelF (X k : List Nat) (h : X.length = 4) : roundF X k = feistelF X k := by
  unfold roundF feistelF
  rw [← list4_eq X h]

theorem output_append (L R : List Nat) (hL : L.length = 4) (hR : R.length = 4) :
    output L R = L ++ R := by
  conv_rhs => rw [list4_eq L hL, list4_eq R hR]
  rfl

theorem refEncrypt_lengths (sk : Nat → List Nat) (L0 R0 : List Nat) (hL : L0.length = 4)
    (hR : R0.length = 4) (i : Nat) :
    (refEncrypt sk L0 R0 i).1.length = 4 ∧ (refEncrypt sk L0 R0 i).2.length = 4 := by
  cases i with
  | zero => exact ⟨hL, hR⟩
  | succ i => exact ⟨rfl, rfl⟩

theorem stepSub_here (bigEndian : Bool) (keylength : Nat) (K : List Nat) (j : Nat) :
    stepSubkey bigEndian keylength (stepState bigEndian keylength K j).1
        (stepState bigEndian keylength K j).2 = stepSub bigEndian keylength K j := rfl

theorem stepSub_next (bigEndian : Bool) (keylength : Nat) (K : List Nat) (j : Nat) :
    stepSubkey bigEndian keylength
        (stepKey bigEndian keylength (stepState bigEndian keylength K j).1
          (stepState bigEndian keylength K j).2)
        (u32 ((stepState bigEndian keylength K j).2 + DELTA))
      = stepSub bigEndian keylength K (j + 1) := rfl

/-- One round of encryption in terms of `feistelF`: first `R`, from the old `L`, then `L`,
from the new `R`. -/
theorem encRound_step (bigEndian : Bool) (keylength : Nat) (s : EncState)
    (hL : s.L.length = 4) :
    (encRound bigEndian keylength s).R
        = xor4 s.R (feistelF s.L (stepSubkey bigEndian keylength s.key s.round_constant))
      ∧ (encRound bigEndian keylength s).L
        = xor4 s.L (feistelF (encRound bigEndian keylength s).R
            (stepSubkey bigEndian keylength
              (stepKey bigEndian keylength s.key s.round_constant)
              (u32 (s.round_constant + DELTA)))) := by
  constructor
  · show xor4 s.R (roundF s.L _) = _
    rw [roundF_eq_feistelF _ _ hL]
  · show xor4 s.L (roundF (xor4 s.R (roundF s.L _)) _) = _
    rw [roundF_eq_feistelF _ _ (xor4_length _ _)]
    rfl

/-- The branches after `k` iterations of the encryption loop are `(L_k, R_k)` of the
reference iteration over the inline subkeys. -/
theorem encRound_reference (bigEndian : Bool) (keylength : Nat) (s0 : EncState)
    (hL : s0.L.length = 4) (hR : s0.R.length = 4) (hrc : s0.round_constant = 0) (k : Nat) :
    (((encRound bigEndian keylength)^[k] s0).L, ((encRound bigEndian keylength)^[k] s0).R)
      = refEncrypt (fun j => stepSub bigEndian keylength s0.key (j - 1)) s0.L s0.R k := by
  induction k with
  | zero => rfl
  | succ k ih =>
    have hlen := encRound_lengths bigEndian keylength s0 hL hR k
    have hs := encRound_schedule bigEndian keylength s0 hrc k
    have hk := congrArg Prod.fst hs
    have hc := congrArg Prod.snd hs
    have iL := congrArg Prod.fst ih
    have iR := congrArg Prod.snd ih
    simp only at hk hc iL iR
    obtain ⟨sR, sL⟩ := encRound_step bigEndian keylength
      ((encRound bigEndian keylength)^[k] s0) hlen.1
    rw [hk, hc, stepSub_next] at sL
    rw [hk, hc, stepSub_here] at sR
    rw [Function.iterate_succ_apply', sL, sR, iL, iR]
    have e1 : 2 * (k + 1) - 1 - 1 = 2 * k := by omega
    have e2 : 2 * (k + 1) - 1 = 2 * k + 1 := by omega
    simp only [refEncrypt, e1, e2, Nat.add_sub_cancel]

theorem refEncrypt_congr (sk sk' : Nat → List Nat) (L0 R0 : List Nat)
    (h : ∀ j, 1 ≤ j → sk j = sk' j) (i : Nat) :
    refEncrypt sk L0 R0 i = refEncrypt sk' L0 R0 i := by
  induction i with
  | zero => rfl
  | succ i ih =>
    simp only [refEncrypt, ih, h (2 * (i + 1) - 1) (by omega), h (2 * (i + 1)) (by omega)]

theorem take_drop_eight (P : List Nat) (h : P.length = 8) :
    [rd P 0, rd P 1, rd P 2, rd P 3] = P.take 4 ∧ [rd P 4, rd P 5, rd P 6, rd P 7] = P.drop 4 := by
  match P, h with
  | [_, _, _, _, _, _, _, _], _ => exact ⟨rfl, rfl⟩

/-- The loop of an encrypt function runs its first `r` iterations whenever `r ≤ 255`. -/
theorem encrypt_loop_iterate (bigEndian : Bool) (keylength : Nat) (s0 : EncState) (r : Nat)
    (hi : s0.i = 1) (hr : r ≤ 255) :
    loopFor (fun s => decide (s.i ≤ r)) (encRound bigEndian keylength) r s0
      = (encRound bigEndian keylength)^[r] s0 := by
  apply loopFor_iterate
  intro k hk
  simp only [encRound_counter bigEndian keylength s0 k (by omega), hi, decide_eq_true_eq]
  omega

/-- The reference iteration over the documented subkeys is what `r` iterations of the
encryption round reach from an 8-byte block `P` and a key buffer `K` of at least 4 bytes. -/
theorem encrypt_iterate_reference (bigEndian : Bool) (keylength : Nat) (P K : List Nat)
    (r : Nat) (hP : P.length = 8) (hK : 4 ≤ K.length) (s : EncState)
    (hs : s = (encRound bigEndian keylength)^[r]
      { i := 1, L := [rd P 0, rd P 1, rd P 2, rd P 3], R := [rd P 4, rd P 5, rd P 6, rd P 7],
        key := K, round_constant := 0, used := [] }) :
    (s.L, s.R) = refEncrypt (schedSubkey bigEndian keylength K) (P.take 4) (P.drop 4) r
      ∧ output s.L s.R
        = (refEncrypt (schedSubkey bigEndian keylength K) (P.take 4) (P.drop 4) r).1
          ++ (refEncrypt (schedSubkey bigEndian keylength K) (P.take 4) (P.drop 4) r).2 := by
  have href : (s.L, s.R)
      = refEncrypt (schedSubkey bigEndian keylength K) (P.take 4) (P.drop 4) r := by
    rw [hs, encRound_reference bigEndian keylength
      { i := 1, L := [rd P 0, rd P 1, rd P 2, rd P 3], R := [rd P 4, rd P 5, rd P 6, rd P 7],
        key := K, round_constant := 0, used := [] } rfl rfl rfl r]
    simp only [(take_drop_eight P hP).1, (take_drop_eight P hP).2]
    apply refEncrypt_congr
    intro j hj
    show stepSub bigEndian keylength K (j - 1) = _
    rw [stepSub_eq bigEndian keylength K hK (j - 1), Nat.sub_add_cancel hj]
  refine ⟨href, ?_⟩
  have hlen := refEncrypt_lengths (schedSubkey bigEndian keylength K) (P.take 4) (P.drop 4)
    (by rw [List.length_take, hP]; rfl) (by rw [List.length_drop, hP]) r
  rw [← href] at hlen
  rw [← href]
  exact output_append s.L s.R hlen.1 hlen.2

theorem encrypt_init_K128 (P K : List Nat) (hK : K.length = 16) :
    SWAN64_K128_encrypt_init P K
      = { i := 1, L := [rd P 0, rd P 1, rd P 2, rd P 3],
          R := [rd P 4, rd P 5, rd P 6, rd P 7], key := K, round_constant := 0, used := [] } := by
  unfold SWAN64_K128_encrypt_init
  rw [List.take_of_length_le (by rw [hK]; decide)]

theorem encrypt_init_K256 (P K : List Nat) (hK : K.length = 32) :
    SWAN64_K256_encrypt_init P K
      = { i := 1, L := [rd P 0, rd P 1, rd P 2, rd P 3],
          R := [rd P 4, rd P 5, rd P 6, rd P 7], key := K, round_constant := 0, used := [] } := by
  unfold SWAN64_K256_encrypt_init
  rw [List.take_of_length_le (by rw [hK]; decide)]

/-- With `rounds ≤ 254` and fuel for `rounds` iterations, both encrypt functions return
`L_r` followed by `R_r` of the reference iteration over the documented subkeys of the key. -/
theorem encrypt_reference (bigEndian : Bool) (fuel : Nat) (P K16 K32 : List Nat) (r : Nat)
    (hP : IsBytes 8 P) (h16 : IsBytes 16 K16) (h32 : IsBytes 32 K32) (hr : r ≤ 254)
    (hfuel : r ≤ fuel) :
    SWAN64_K128_encrypt_rounds bigEndian fuel P K16 r
        = some ((refEncrypt (schedSubkey bigEndian 128 K16) (P.take 4) (P.drop 4) r).1
          ++ (refEncrypt (schedSubkey bigEndian 128 K16) (P.take 4) (P.drop 4) r).2)
      ∧ SWAN64_K256_encrypt_rounds bigEndian fuel P K32 r
        = some ((refEncrypt (schedSubkey bigEndian 256 K32) (P.take 4) (P.drop 4) r).1
          ++ (refEncrypt (schedSubkey bigEndian 256 K32) (P.take 4) (P.drop 4) r).2) := by
  unfold SWAN64_K128_encrypt_rounds SWAN64_K256_encrypt_rounds
  rw [funext (encrypt_body_K128 bigEndian), funext (encrypt_body_K256 bigEndian),
    encrypt_init_K128 P K16 h16.1, encrypt_init_K256 P K32 h32.1,
    encrypt_exit bigEndian KEY128 _ r fuel rfl hr hfuel,
    encrypt_exit bigEndian KEY256 _ r fuel rfl hr hfuel]
  exact ⟨congrArg some (encrypt_iterate_reference bigEndian KEY128 P K16 r hP.1
      (by rw [h16.1]; decide) _ rfl).2,
    congrArg some (encrypt_iterate_reference bigEndian KEY256 P K32 r hP.1
      (by rw [h32.1]; decide) _ rfl).2⟩

theorem encrypt_reference_witness :
    SWAN64_K128_encrypt_rounds false 3 [1, 2, 3, 4, 5, 6, 7, 8] (List.range 16) 2
        = some ((refEncrypt (schedSubkey false 128 (List.range 16))
            ([1, 2, 3, 4, 5, 6, 7, 8].take 4) ([1, 2, 3, 4, 5, 6, 7, 8].drop 4) 2).1
          ++ (refEncrypt (schedSubkey false 128 (List.range 16))
            ([1, 2, 3, 4, 5, 6, 7, 8].take 4) ([1, 2, 3, 4, 5, 6, 7, 8].drop 4) 2).2)
      ∧ SWAN64_K256_encrypt_rounds false 3 [1, 2, 3, 4, 5, 6, 7, 8] (List.range 32) 2
        = some ((refEncrypt (schedSubkey false 256 (List.range 32))
            ([1, 2, 3, 4, 5, 6, 7, 8].take 4) ([1, 2, 3, 4, 5, 6, 7, 8].drop 4) 2).1
          ++ (refEncrypt (schedSubkey false 256 (List.range 32))
            ([1, 2, 3, 4, 5, 6, 7, 8].take 4) ([1, 2, 3, 4, 5, 6, 7, 8].drop 4) 2).2) :=
  encrypt_reference false 3 [1, 2, 3, 4, 5, 6, 7, 8] (List.range 16) (List.range 32) 2
    (by decide) (by decide) (by decide) (by decide) (by decide)

/-- Claim C13 at `rounds = 255`: after 255 iterations the branches of both encrypt functions
are `(L_255, R_255)` of the reference iteration over the documented subkeys, but the loop
does not stop there and, whatever the fuel, no ciphertext is returned. -/
theorem C13_encrypt_at_255 (bigEndian : Bool) (fuel : Nat) (P K16 K32 : List Nat)
    (hP : IsBytes 8 P) (h16 : IsBytes 16 K16) (h32 : IsBytes 32 K32) :
    (SWAN64_K128_encrypt_rounds bigEndian fuel P K16 255 = none
        ∧ ((SWAN64_K128_encrypt_loop bigEndian 255 P K16 255).L,
            (SWAN64_K128_encrypt_loop bigEndian 255 P K16 255).R)
          = refEncrypt (schedSubkey bigEndian 128 K16) (P.take 4) (P.drop 4) 255)
      ∧ (SWAN64_K256_encrypt_rounds bigEndian fuel P K32 255 = none
        ∧ ((SWAN64_K256_encrypt_loop bigEndian 255 P K32 255).L,
            (SWAN64_K256_encrypt_loop bigEndian 255 P K32 255).R)
          = refEncrypt (schedSubkey bigEndian 256 K32) (P.take 4) (P.drop 4) 255) := by
  unfold SWAN64_K128_encrypt_rounds SWAN64_K256_encrypt_rounds SWAN64_K128_encrypt_loop
    SWAN64_K256_encrypt_loop
  rw [funext (encrypt_body_K128 bigEndian), funext (encrypt_body_K256 bigEndian),
    encrypt_init_K128 P K16 h16.1, encrypt_init_K256 P K32 h32.1,
    loopResult_none _ _ fuel _ (encrypt_255_runs bigEndian KEY128 _ rfl),
    loopResult_none _ _ fuel _ (encrypt_255_runs bigEndian KEY256 _ rfl),
    encrypt_loop_iterate bigEndian KEY128 _ 255 rfl (by decide),
    encrypt_loop_iterate bigEndian KEY256 _ 255 rfl (by decide)]
  exact ⟨⟨rfl, (encrypt_iterate_reference bigEndian KEY128 P K16 255 hP.1
      (by rw [h16.1]; decide) _ rfl).1⟩,
    ⟨rfl, (encrypt_iterate_reference bigEndian KEY256 P K32 255 hP.1
      (by rw [h32.1]; decide) _ rfl).1⟩⟩

theorem C13_encrypt_at_255_witness :
    (SWAN64_K128_encrypt_rounds false 300 [1, 2, 3, 4, 5, 6, 7, 8] (List.range 16) 255 = none
        ∧ ((SWAN64_K128_encrypt_loop false 255 [1, 2, 3, 4, 5, 6, 7, 8] (List.range 16) 255).L,
            (SWAN64_K128_encrypt_loop false 255 [1, 2, 3, 4, 5, 6, 7, 8] (List.range 16) 255).R)
          = refEncrypt (schedSubkey false 128 (List.range 16))
              ([1, 2, 3, 4, 5, 6, 7, 8].take 4) ([1, 2, 3, 4, 5, 6, 7, 8].drop 4) 255)
      ∧ (SWAN64_K256_encrypt_rounds false 300 [1, 2, 3, 4, 5, 6, 7, 8] (List.range 32) 255 = none
        ∧ ((SWAN64_K256_encrypt_loop false 255 [1, 2, 3, 4, 5, 6, 7, 8] (List.range 32) 255).L,
            (SWAN64_K256_encrypt_loop false 255 [1, 2, 3, 4, 5, 6, 7, 8] (List.range 32) 255).R)
          = refEncrypt (schedSubkey false 256 (List.range 32))
              ([1, 2, 3, 4, 5, 6, 7, 8].take 4) ([1, 2, 3, 4, 5, 6, 7, 8].drop 4) 255) :=
  C13_encrypt_at_255 false 300 [1, 2, 3, 4, 5, 6, 7, 8] (List.range 16) (List.range 32)
    (by decide) (by decide) (by decide)

/-! ## Decryption against the reference iteration -/

theorem xor4_comm (x y : List Nat) : xor4 x y = xor4 y x := by
  unfold xor4
  rw [Nat.xor_comm (rd x 0), Nat.xor_comm (rd x 1), Nat.xor_comm (rd x 2), Nat.xor_comm (rd x 3)]

/-- One round of decryption in terms of `feistelF`: first `L`, from the old `R`, then `R`,
from the new `L`. -/
theorem decRound_step (rounds : Nat) (ekey : List Nat) (d : DecState) (hR : d.R.length = 4) :
    (decRound rounds ekey d).L
        = xor4 d.L (feistelF d.R
            (entry ekey (Int.toNat (2 * (rounds : Int) + 1 - (2 * (d.i : Int) - 1)))))
      ∧ (decRound rounds ekey d).R
        = xor4 d.R (feistelF (decRound rounds ekey d).L
            (entry ekey (Int.toNat (2 * (rounds : Int) + 1 - 2 * (d.i : Int))))) := by
  constructor
  · show xor4 d.L (roundF d.R _) = _
    rw [roundF_eq_feistelF _ _ hR]
  · show xor4 (roundF (xor4 d.L (roundF d.R _)) _) d.R = _
    rw [roundF_eq_feistelF _ _ (xor4_length _ _), xor4_comm]
    rfl

theorem decRound_lengths (rounds : Nat) (ekey : List Nat) (d0 : DecState)
    (hL : d0.L.length = 4) (hR : d0.R.length = 4) (m : Nat) :
    ((decRound rounds ekey)^[m] d0).L.length = 4
      ∧ ((decRound rounds ekey)^[m] d0).R.length = 4 := by
  induction m with
  | zero => exact ⟨hL, hR⟩
  | succ m _ =>
    rw [Function.iterate_succ_apply']
    exact ⟨rfl, rfl⟩

/-- The branches after `m ≤ 255` iterations of the decryption loop are those of the
reference iteration, and the table indices read so far are
`(2r+1) - 1, (2r+1) - 2, ..., (2r+1) - 2m`. -/
theorem decRound_reference (r : Nat) (T : List Nat) (d0 : DecState) (hi : d0.i = 1)
    (hL : d0.L.length = 4) (hR : d0.R.length = 4) (hreads : d0.reads = []) (m : Nat)
    (hm : m ≤ 255) :
    (((decRound r T)^[m] d0).L, ((decRound r T)^[m] d0).R) = refDecrypt T r d0.L d0.R m
      ∧ ((decRound r T)^[m] d0).reads = (List.range (2 * m)).map (fun k => 2 * r + 1 - (k + 1)) := by
  induction m with
  | zero => exact ⟨rfl, by simp [hreads]⟩
  | succ m ih =>
    obtain ⟨ihLR, ihr⟩ := ih (by omega)
    have iL := congrArg Prod.fst ihLR
    have iR := congrArg Prod.snd ihLR
    simp only at iL iR
    have hlen := decRound_lengths r T d0 hL hR m
    have hc : ((decRound r T)^[m] d0).i = 1 + m := by
      rw [decRound_counter r T d0 m (by omega), hi]
      omega
    obtain ⟨sL, sR⟩ := decRound_step r T ((decRound r T)^[m] d0) hlen.2
    have e1 : Int.toNat (2 * (r : Int) + 1 - (2 * ((1 + m : Nat) : Int) - 1))
        = 2 * r + 1 - (2 * (m + 1) - 1) := by omega
    have e2 : Int.toNat (2 * (r : Int) + 1 - 2 * ((1 + m : Nat) : Int))
        = 2 * r + 1 - 2 * (m + 1) := by omega
    rw [hc, e1] at sL
    rw [hc, e2] at sR
    constructor
    · rw [Function.iterate_succ_apply', sR, sL, iL, iR]
      simp only [refDecrypt]
    · rw [Function.iterate_succ_apply']
      show ((decRound r T)^[m] d0).reads ++ [Int.toNat _] ++ [Int.toNat _] = _
      rw [hc, e1, e2, ihr]
      have e3 : 2 * (m + 1) = 2 * m + 1 + 1 := by ring
      rw [e3, List.range_succ, List.range_succ, List.map_append, List.map_append]
      simp only [List.map_cons, List.map_nil]
      congr 2

theorem refDecrypt_lengths (T : List Nat) (r : Nat) (L0 R0 : List Nat) (hL : L0.length = 4)
    (hR : R0.length = 4) (i : Nat) :
    (refDecrypt T r L0 R0 i).1.length = 4 ∧ (refDecrypt T r L0 R0 i).2.length = 4 := by
  cases i with
  | zero => exact ⟨hL, hR⟩
  | succ i => exact ⟨rfl, rfl⟩

/-- The reference iteration of decryption is what `m ≤ 255` iterations of the decryption
round reach from an 8-byte block `Ct`. -/
theorem decrypt_iterate_reference (r : Nat) (T Ct : List Nat) (m : Nat) (hC : Ct.length = 8)
    (hm : m ≤ 255) (d : DecState)
    (hd : d = (decRound r T)^[m]
      { i := 1, L := [rd Ct 0, rd Ct 1, rd Ct 2, rd Ct 3],
        R := [rd Ct 4, rd Ct 5, rd Ct 6, rd Ct 7], reads := [] }) :
    (d.L, d.R) = refDecrypt T r (Ct.take 4) (Ct.drop 4) m
      ∧ output d.L d.R = (refDecrypt T r (Ct.take 4) (Ct.drop 4) m).1
          ++ (refDecrypt T r (Ct.take 4) (Ct.drop 4) m).2
      ∧ d.reads = (List.range (2 * m)).map (fun k => 2 * r + 1 - (k + 1)) := by
  obtain ⟨href, hreads⟩ := decRound_reference r T
    { i := 1, L := [rd Ct 0, rd Ct 1, rd Ct 2, rd Ct 3],
      R := [rd Ct 4, rd Ct 5, rd Ct 6, rd Ct 7], reads := [] } rfl rfl rfl rfl m hm
  rw [← hd] at href hreads
  simp only [(take_drop_eight Ct hC).1, (take_drop_eight Ct hC).2] at href
  refine ⟨href, ?_, hreads⟩
  have hlen := refDecrypt_lengths T r (Ct.take 4) (Ct.drop 4)
    (by rw [List.length_take, hC]; rfl) (by rw [List.length_drop, hC]) m
  rw [← href] at hlen
  rw [← href]
  exact output_append d.L d.R hlen.1 hlen.2

/-- With `rounds ≤ 254` and fuel for `rounds` iterations, both decrypt functions return the
final `L` followed by the final `R` of the reference iteration, having read the table
entries `2r, 2r - 1, ..., 1` in that order. -/
theorem decrypt_reference (fuel : Nat) (Ct T : List Nat) (r : Nat) (hC : IsBytes 8 Ct)
    (hT : T.length = (2 * r + 1) * 4) (hr : r ≤ 254) (hfuel : r ≤ fuel) :
    (SWAN64_K128_decrypt_rounds fuel Ct T r
        = some ((refDecrypt T r (Ct.take 4) (Ct.drop 4) r).1
          ++ (refDecrypt T r (Ct.take 4) (Ct.drop 4) r).2)
        ∧ (SWAN64_K128_decrypt_loop fuel Ct T r).reads
          = (List.range (2 * r)).map (fun k => 2 * r + 1 - (k + 1)))
      ∧ (SWAN64_K256_decrypt_rounds fuel Ct T r
        = some ((refDecrypt T r (Ct.take 4) (Ct.drop 4) r).1
          ++ (refDecrypt T r (Ct.take 4) (Ct.drop 4) r).2)
        ∧ (SWAN64_K256_decrypt_loop fuel Ct T r).reads
          = (List.range (2 * r)).map (fun k => 2 * r + 1 - (k + 1))) := by
  have key : ∀ d0 : DecState, d0 = SWAN64_K128_decrypt_init Ct →
      (loopResult (fun s => decide (s.i ≤ r)) (decRound r T) fuel d0).map
          (fun s => output s.L s.R)
        = some ((refDecrypt T r (Ct.take 4) (Ct.drop 4) r).1
          ++ (refDecrypt T r (Ct.take 4) (Ct.drop 4) r).2)
      ∧ (loopFor (fun s => decide (s.i ≤ r)) (decRound r T) fuel d0).reads
        = (List.range (2 * r)).map (fun k => 2 * r + 1 - (k + 1)) := by
    intro d0 hd0
    subst hd0
    have h := decrypt_iterate_reference r T Ct r hC.1 (by omega) _ rfl
    rw [decrypt_exit T _ r fuel rfl hr hfuel, decrypt_loop_eq r T _ hr rfl,
      Nat.min_eq_right hfuel]
    exact ⟨congrArg some h.2.1, h.2.2⟩
  unfold SWAN64_K128_decrypt_rounds SWAN64_K256_decrypt_rounds SWAN64_K128_decrypt_loop
    SWAN64_K256_decrypt_loop
  rw [funext (decrypt_body_K128 r _), funext (decrypt_body_K256 r _),
    List.take_of_length_le (by omega)]
  exact ⟨key _ rfl, key _ rfl⟩

theorem decrypt_reference_witness :
    (SWAN64_K128_decrypt_rounds 3 [1, 2, 3, 4, 5, 6, 7, 8] (List.range 20) 2
        = some ((refDecrypt (List.range 20) 2 ([1, 2, 3, 4, 5, 6, 7, 8].take 4)
            ([1, 2, 3, 4, 5, 6, 7, 8].drop 4) 2).1
          ++ (refDecrypt (List.range 20) 2 ([1, 2, 3, 4, 5, 6, 7, 8].take 4)
            ([1, 2, 3, 4, 5, 6, 7, 8].drop 4) 2).2)
        ∧ (SWAN64_K128_decrypt_loop 3 [1, 2, 3, 4, 5, 6, 7, 8] (List.range 20) 2).reads
          = (List.range (2 * 2)).map (fun k => 2 * 2 + 1 - (k + 1)))
      ∧ (SWAN64_K256_decrypt_rounds 3 [1, 2, 3, 4, 5, 6, 7, 8] (List.range 20) 2
        = some ((refDecrypt (List.range 20) 2 ([1, 2, 3, 4, 5, 6, 7, 8].take 4)
            ([1, 2, 3, 4, 5, 6, 7, 8].drop 4) 2).1
          ++ (refDecrypt (List.range 20) 2 ([1, 2, 3, 4, 5, 6, 7, 8].take 4)
            ([1, 2, 3, 4, 5, 6, 7, 8].drop 4) 2).2)
        ∧ (SWAN64_K256_decrypt_loop 3 [1, 2, 3, 4, 5, 6, 7, 8] (List.range 20) 2).reads
          = (List.range (2 * 2)).map (fun k => 2 * 2 + 1 - (k + 1))) :=
  decrypt_reference 3 [1, 2, 3, 4, 5, 6, 7, 8] (List.range 20) 2 (by decide) (by decide)
    (by decide) (by decide)

/-- Claim C14 at `rounds = 255`: after 255 iterations the branches of both decrypt functions
are those of the reference iteration and the table has been read back to front, entries
`510, 509, ..., 1`, but the loop does not stop there and, whatever the fuel, no plaintext is
returned. -/
theorem C14_decrypt_at_255 (fuel : Nat) (Ct T : List Nat) (hC : IsBytes 8 Ct)
    (hT : T.length = (2 * 255 + 1) * 4) :
    (SWAN64_K128_decrypt_rounds fuel Ct T 255 = none
        ∧ ((SWAN64_K128_decrypt_loop 255 Ct T 255).L, (SWAN64_K128_decrypt_loop 255 Ct T 255).R)
          = refDecrypt T 255 (Ct.take 4) (Ct.drop 4) 255
        ∧ (SWAN64_K128_decrypt_loop 255 Ct T 255).reads
          = (List.range 510).map (fun k => 511 - (k + 1)))
      ∧ (SWAN64_K256_decrypt_rounds fuel Ct T 255 = none
        ∧ ((SWAN64_K256_decrypt_loop 255 Ct T 255).L, (SWAN64_K256_decrypt_loop 255 Ct T 255).R)
          = refDecrypt T 255 (Ct.take 4) (Ct.drop 4) 255
        ∧ (SWAN64_K256_decrypt_loop 255 Ct T 255).reads
          = (List.range 510).map (fun k => 511 - (k + 1))) := by
  have key : ∀ d0 : DecState, d0 = SWAN64_K128_decrypt_init Ct →
      (loopResult (fun s => decide (s.i ≤ 255)) (decRound 255 T) fuel d0).map
          (fun s => output s.L s.R) = none
      ∧ ((loopFor (fun s => decide (s.i ≤ 255)) (decRound 255 T) 255 d0).L,
          (loopFor (fun s => decide (s.i ≤ 255)) (decRound 255 T) 255 d0).R)
        = refDecrypt T 255 (Ct.take 4) (Ct.drop 4) 255
      ∧ (loopFor (fun s => decide (s.i ≤ 255)) (decRound 255 T) 255 d0).reads
        = (List.range 510).map (fun k => 511 - (k + 1)) := by
    intro d0 hd0
    subst hd0
    have h := decrypt_iterate_reference 255 T Ct 255 hC.1 (by omega) _ rfl
    rw [loopResult_none _ _ fuel _ (decrypt_255_runs T _ rfl),
      loopFor_iterate _ _ 255 _ (fun k _ => decrypt_255_runs T _ rfl k)]
    exact ⟨rfl, h.1, h.2.2⟩
  unfold SWAN64_K128_decrypt_rounds SWAN64_K256_decrypt_rounds SWAN64_K128_decrypt_loop
    SWAN64_K256_decrypt_loop
  rw [funext (decrypt_body_K128 255 _), funext (decrypt_body_K256 255 _),
    List.take_of_length_le (by omega)]
  exact ⟨key _ rfl, key _ rfl⟩

theorem C14_decrypt_at_255_witness :
    (SWAN64_K128_decrypt_rounds 300 [1, 2, 3, 4, 5, 6, 7, 8] (List.replicate 2044 7) 255 = none
        ∧ ((SWAN64_K128_decrypt_loop 255 [1, 2, 3, 4, 5, 6, 7, 8] (List.replicate 2044 7) 255).L,
            (SWAN64_K128_decrypt_loop 255 [1, 2, 3, 4, 5, 6, 7, 8] (List.replicate 2044 7) 255).R)
          = refDecrypt (List.replicate 2044 7) 255 ([1, 2, 3, 4, 5, 6, 7, 8].take 4)
              ([1, 2, 3, 4, 5, 6, 7, 8].drop 4) 255
        ∧ (SWAN64_K128_decrypt_loop 255 [1, 2, 3, 4, 5, 6, 7, 8] (List.replicate 2044 7) 255).reads
          = (List.range 510).map (fun k => 511 - (k + 1)))
      ∧ (SWAN64_K256_decrypt_rounds 300 [1, 2, 3, 4, 5, 6, 7, 8] (List.replicate 2044 7) 255 = none
        ∧ ((SWAN64_K256_decrypt_loop 255 [1, 2, 3, 4, 5, 6, 7, 8] (List.replicate 2044 7) 255).L,
            (SWAN64_K256_decrypt_loop 255 [1, 2, 3, 4, 5, 6, 7, 8] (List.replicate 2044 7) 255).R)
          = refDecrypt (List.replicate 2044 7) 255 ([1, 2, 3, 4, 5, 6, 7, 8].take 4)
              ([1, 2, 3, 4, 5, 6, 7, 8].drop 4) 255
        ∧ (SWAN64_K256_decrypt_loop 255 [1, 2, 3, 4, 5, 6, 7, 8] (List.replicate 2044 7) 255).reads
          = (List.range 510).map (fun k => 511 - (k + 1))) :=
  C14_decrypt_at_255 300 [1, 2, 3, 4, 5, 6, 7, 8] (List.replicate 2044 7) (by decide)
    (List.length_replicate 2044 7)

/-! ## One encryption round undoes one decryption round -/

theorem xor4_cancel_mid (x t : List Nat) (h : x.length = 4) : xor4 (xor4 t x) t = x := by
  rw [xor4_comm t x]
  exact xor4_cancel_right x t h

theorem encRound_decRound (bigEndian : Bool) (keylength : Nat) (s : EncState) (d : DecState)
    (rounds : Nat) (ekey : List Nat) (hL : d.L.length = 4) (hR : d.R.length = 4)
    (hsL : s.L = (decRound rounds ekey d).L) (hsR : s.R = (decRound rounds ekey d).R)
    (h1 : stepSubkey bigEndian keylength s.key s.round_constant
      = entry ekey (Int.toNat (2 * (rounds : Int) + 1 - 2 * (d.i : Int))))
    (h2 : stepSubkey bigEndian keylength (stepKey bigEndian keylength s.key s.round_constant)
        (u32 (s.round_constant + DELTA))
      = entry ekey (Int.toNat (2 * (rounds : Int) + 1 - (2 * (d.i : Int) - 1)))) :
    (encRound bigEndian keylength s).L = d.L ∧ (encRound bigEndian keylength s).R = d.R := by
  have eR : (encRound bigEndian keylength s).R = d.R := by
    show xor4 s.R (roundF s.L _) = d.R
    rw [h1, hsR, hsL]
    exact xor4_cancel_mid d.R _ hR
  refine ⟨?_, eR⟩
  show xor4 s.L (roundF (encRound bigEndian keylength s).R _) = d.L
  rw [eR, h2, hsL]
  exact xor4_cancel_right d.L _ hL

/-- Running `k` encryption rounds on the state reached by `r` decryption rounds gives the
branches reached by `r - k` decryption rounds. -/
theorem encRound_iterate_back (bigEndian : Bool) (keylength : Nat) (s0 : EncState)
    (d0 : DecState) (r : Nat) (ekey : List Nat) (hr : r ≤ 255) (hL : d0.L.length = 4)
    (hR : d0.R.length = 4) (hrc : s0.round_constant = 0) (hi : d0.i = 1)
    (hsL : s0.L = ((decRound r ekey)^[r] d0).L) (hsR : s0.R = ((decRound r ekey)^[r] d0).R)
    (htab : ∀ j, 1 ≤ j → j ≤ 2 * r → entry ekey j = stepSub bigEndian keylength s0.key (j - 1))
    (k : Nat) (hk : k ≤ r) :
    ((encRound bigEndian keylength)^[k] s0).L = ((decRound r ekey)^[r - k] d0).L
      ∧ ((encRound bigEndian keylength)^[k] s0).R = ((decRound r ekey)^[r - k] d0).R := by
  induction k with
  | zero => exact ⟨hsL, hsR⟩
  | succ k ih =>
    obtain ⟨ihL, ihR⟩ := ih (by omega)
    have hsplit : r - k = (r - (k + 1)) + 1 := by omega
    rw [hsplit, Function.iterate_succ_apply'] at ihL ihR
    have hcnt : ((decRound r ekey)^[r - (k + 1)] d0).i = r - k := by
      rw [decRound_counter r ekey d0 _ (by omega), hi]
      omega
    have hlen := decRound_lengths r ekey d0 hL hR (r - (k + 1))
    have hs := encRound_schedule bigEndian keylength s0 hrc k
    have hkk := congrArg Prod.fst hs
    have hc := congrArg Prod.snd hs
    simp only at hkk hc
    rw [Function.iterate_succ_apply']
    apply encRound_decRound bigEndian keylength _ _ r ekey hlen.1 hlen.2 ihL ihR
    · rw [hcnt, hkk, hc, stepSub_here]
      have e : Int.toNat (2 * (r : Int) + 1 - 2 * ((r - k : Nat) : Int)) = 2 * k + 1 := by omega
      rw [e, htab _ (by omega) (by omega), Nat.add_sub_cancel]
    · rw [hcnt, hkk, hc, stepSub_next]
      have e : Int.toNat (2 * (r : Int) + 1 - (2 * ((r - k : Nat) : Int) - 1))
          = 2 * k + 1 + 1 := by omega
      rw [e, htab _ (by omega) (by omega), Nat.add_sub_cancel]

/-- Encryption with key buffer `K` of the block that decryption returns, with a table whose
entries `1..2r` are the inline subkeys of `K`, gives back the block decryption started
from. -/
theorem roundtrip_back (bigEndian : Bool) (keylength : Nat) (Ct K T : List Nat) (r fuel : Nat)
    (hC : Ct.length = 8) (hr : r ≤ 254) (hfuel : r ≤ fuel)
    (hT : T.length = (2 * r + 1) * 4)
    (htab : ∀ j, 1 ≤ j → j ≤ 2 * r → entry T j = stepSub bigEndian keylength K (j - 1)) :
    ∃ Pt, (loopResult (fun s => decide (s.i ≤ r)) (decRound r (T.take ((2 * r + 1) * 4))) fuel
          { i := 1, L := [rd Ct 0, rd Ct 1, rd Ct 2, rd Ct 3],
            R := [rd Ct 4, rd Ct 5, rd Ct 6, rd Ct 7], reads := [] }).map
          (fun s => output s.L s.R) = some Pt
      ∧ (loopResult (fun s => decide (s.i ≤ r)) (encRound bigEndian keylength) fuel
          { i := 1, L := [rd Pt 0, rd Pt 1, rd Pt 2, rd Pt 3],
            R := [rd Pt 4, rd Pt 5, rd Pt 6, rd Pt 7], key := K, round_constant := 0,
            used := [] }).map (fun s => output s.L s.R) = some Ct := by
  obtain ⟨hl, hrr⟩ := decRound_lengths r T
    { i := 1, L := [rd Ct 0, rd Ct 1, rd Ct 2, rd Ct 3],
      R := [rd Ct 4, rd Ct 5, rd Ct 6, rd Ct 7], reads := [] } rfl rfl r
  rw [List.take_of_length_le (by omega), decrypt_exit _ _ r fuel rfl hr hfuel]
  generalize hD : (decRound r T)^[r]
    { i := 1, L := [rd Ct 0, rd Ct 1, rd Ct 2, rd Ct 3],
      R := [rd Ct 4, rd Ct 5, rd Ct 6, rd Ct 7], reads := [] } = D at hl hrr
  refine ⟨output D.L D.R, rfl, ?_⟩
  have hdL : [rd (output D.L D.R) 0, rd (output D.L D.R) 1, rd (output D.L D.R) 2,
      rd (output D.L D.R) 3] = D.L := (list4_eq _ hl).symm
  have hdR : [rd (output D.L D.R) 4, rd (output D.L D.R) 5, rd (output D.L D.R) 6,
      rd (output D.L D.R) 7] = D.R := (list4_eq _ hrr).symm
  rw [hdL, hdR, encrypt_exit bigEndian keylength _ r fuel rfl hr hfuel]
  obtain ⟨hL, hR⟩ := encRound_iterate_back bigEndian keylength
    { i := 1, L := D.L, R := D.R, key := K, round_constant := 0, used := [] }
    { i := 1, L := [rd Ct 0, rd Ct 1, rd Ct 2, rd Ct 3],
      R := [rd Ct 4, rd Ct 5, rd Ct 6, rd Ct 7], reads := [] }
    r T (by omega) rfl rfl rfl rfl (by rw [hD]) (by rw [hD]) htab r (Nat.le_refl r)
  simp only [Nat.sub_self, Function.iterate_zero, id_eq] at hL hR
  rw [Option.map_some', hL, hR, output_eq Ct hC]

/-- Claim C18: for every 8-byte block `C`, on either byte order and whatever slot 0 of the
table holds: decryption of `C` with `T = GenerateKey(K, 32, 128)` returns a block whose
encryption under the 16-byte key `K` with 32 rounds is `C`, and likewise with
`T = GenerateKey(K, 64, 256)`, a 32-byte key and 64 rounds. -/
theorem C18_encrypt_inverts_decrypt (bigEndian : Bool) (uninit : Nat → Nat) (fuel : Nat)
    (Ct K16 K32 : List Nat) (hC : IsBytes 8 Ct) (h16 : IsBytes 16 K16) (h32 : IsBytes 32 K32)
    (hfuel : 64 ≤ fuel) :
    (∃ Pt, SWAN64_K128_decrypt_rounds fuel Ct (GenerateKey bigEndian uninit K16 32 128) 32
          = some Pt
        ∧ SWAN64_K128_encrypt_rounds bigEndian fuel Pt K16 32 = some Ct)
      ∧ (∃ Pt, SWAN64_K256_decrypt_rounds fuel Ct (GenerateKey bigEndian uninit K32 64 256) 64
          = some Pt
        ∧ SWAN64_K256_encrypt_rounds bigEndian fuel Pt K32 64 = some Ct) := by
  obtain ⟨hlen1, htab1⟩ := GenerateKey_table bigEndian uninit K16 32 128
  obtain ⟨hlen2, htab2⟩ := GenerateKey_table bigEndian uninit K32 64 256
  unfold SWAN64_K128_encrypt_rounds SWAN64_K128_decrypt_rounds SWAN64_K256_encrypt_rounds
    SWAN64_K256_decrypt_rounds
  rw [funext (encrypt_body_K128 bigEndian), funext (decrypt_body_K128 32 _),
    funext (encrypt_body_K256 bigEndian), funext (decrypt_body_K256 64 _)]
  exact ⟨roundtrip_back bigEndian KEY128 Ct (K16.take (KEY128 / 8)) _ 32 fuel hC.1 (by decide)
      (by omega) hlen1 htab1,
    roundtrip_back bigEndian KEY256 Ct (K32.take (KEY256 / 8)) _ 64 fuel hC.1 (by decide)
      hfuel hlen2 htab2⟩

theorem C18_encrypt_inverts_decrypt_witness :
    (∃ Pt, SWAN64_K128_decrypt_rounds 64 [9, 8, 7, 6, 5, 4, 3, 2]
            (GenerateKey false (fun _ => 0) (List.range 16) 32 128) 32 = some Pt
        ∧ SWAN64_K128_encrypt_rounds false 64 Pt (List.range 16) 32
          = some [9, 8, 7, 6, 5, 4, 3, 2])
      ∧ (∃ Pt, SWAN64_K256_decrypt_rounds 64 [9, 8, 7, 6, 5, 4, 3, 2]
            (GenerateKey false (fun _ => 0) (List.range 32) 64 256) 64 = some Pt
        ∧ SWAN64_K256_encrypt_rounds false 64 Pt (List.range 32) 64
          = some [9, 8, 7, 6, 5, 4, 3, 2]) :=
  C18_encrypt_inverts_decrypt false (fun _ => 0) 64 [9, 8, 7, 6, 5, 4, 3, 2] (List.range 16)
    (List.range 32) (by decide) (by decide) (by decide) (by decide)

end SWAN64
